import Mathlib

set_option maxRecDepth 10000

/-!
# Verification of the fpk-compose-builder transformation pipeline

A shallow embedding, over `List Char` strings, of the core pure logic of the
`fpk-compose-builder` repository: the compose-file variable extractor
(`internal/parser`), the artifact generators (`internal/generator`), the
file-writing precedence logic (`internal/builder`), and the icon processor
(`internal/builder/icon.go`).  Go strings are modelled as `List Char`
(UTF-8 byte order on Go strings coincides with code-point order, which is
the lexicographic order on `List Char`), Go maps as association lists with
distinct keys, and Go map iteration order as an explicit list-order
parameter wherever the source iterates over a map.
-/

/-- Go `string`, modelled as its list of characters. -/
abbrev Str := List Char

/-- Go `strings.Split` with a one-character separator (the source only ever
splits on `"/"` and `":"`).  Always returns at least one (possibly empty)
chunk, like Go's `strings.Split`. -/
def splitOnChar (sep : Char) : Str → List Str
  | [] => [[]]
  | a :: rest =>
    match splitOnChar sep rest with
    | [] => [[]]
    | h :: t => if a = sep then [] :: h :: t else (a :: h) :: t

theorem splitOnChar_ne_nil (sep : Char) (s : Str) : splitOnChar sep s ≠ [] := by
  cases s with
  | nil => simp [splitOnChar]
  | cons a rest =>
    simp only [splitOnChar]
    rcases h : splitOnChar sep rest with _ | ⟨h', t⟩
    · simp
    · by_cases ha : a = sep <;> simp [ha]

/-- Go's `sort.Strings`: sorts ascending by the byte-wise (lexicographic)
order, which on `List Char` is the standard lexicographic linear order.
Modelled as insertion sort; by antisymmetry every sorting algorithm produces
the same output, so the choice of algorithm is immaterial. -/
def sortStrings (l : List Str) : List Str := l.insertionSort (· ≤ ·)

/-! ## internal/parser: extraction of template variables -/

/-- `extractHostPort` from `internal/parser`: extracts the host port from a
port-mapping string.  The Go code first takes `strings.Split(portMapping, "/")[0]`
(everything before the first `/`), then splits the remainder on `:` and keys on
the token count: 1 token → that token, 2 tokens → the first, 3 tokens → the
second, anything else → the empty string. -/
def extractHostPort (s : Str) : Str :=
  let portMapping := (splitOnChar '/' s).headD []
  match splitOnChar ':' portMapping with
  | [p] => p
  | [p, _] => p
  | [_, p, _] => p
  | _ => []

/-- Splits a string at its last colon: returns `some (pre, suf)` where
`pre` is everything before the last `':'` and `suf` is the tail of the string
starting at that `':'` (mirroring Go's `strings.LastIndex(image, ":")`
followed by slicing `image[:idx]` and `image[idx:]`); `none` when the string
has no colon. -/
def splitAtLastColon : Str → Option (Str × Str)
  | [] => none
  | c :: rest =>
    match splitAtLastColon rest with
    | some (pre, suf) => some (c :: pre, suf)
    | none => if c = ':' then some ([], c :: rest) else none

/-- `extractImageInfo` from `internal/parser`: splits a docker image
reference into (organisation, name).  Empty input gives two empty strings;
otherwise a trailing tag is removed (truncate at the last `':'` unless a `'/'`
occurs at-or-after it, which marks a registry-port colon), the remainder is
split on `'/'`, and the answer is the sole segment twice, (first, second) for
two segments, or (second-to-last, last) otherwise. -/
def extractImageInfo (image : Str) : Str × Str :=
  if image = [] then ([], [])
  else
    let stripped :=
      match splitAtLastColon image with
      | some (pre, suf) => if '/' ∈ suf then image else pre
      | none => image
    let parts := splitOnChar '/' stripped
    match parts with
    | [] => ([], [])
    | [p] => (p, p)
    | [o, n] => (o, n)
    | _ => ((parts.reverse.tail).headD [], parts.reverse.headD [])

/-- One entry of the compose `services` map (`internal/parser` `Service`).
Only the fields the variable extractor reads are modelled; the numerous
round-tripped-but-never-interpreted compose fields are omitted. -/
structure Service where
  image : Str := []
  containerName : Str := []
  ports : List Str := []
deriving DecidableEq

/-- The parsed compose file (`internal/parser` `ComposeFile`), restricted to
the `services` map, which is what `ExtractVariables` consumes.  The Go
`map[string]Service` is modelled as an association list; faithfulness to the
map requires the keys to be pairwise distinct. -/
structure ComposeFile where
  services : List (Str × Service) := []
deriving DecidableEq

/-- The five derived substitution variables (`internal/parser` `Variables`). -/
structure Variables where
  serviceName : Str := []
  containerName : Str := []
  firstPort : Str := []
  imageOrg : Str := []
  imageName : Str := []
deriving DecidableEq

/-- `ExtractVariables` from `internal/parser`: all-zero `Variables` when the
service map is empty; otherwise the service names are sorted (Go collects the
map keys and calls `sort.Strings`), the first sorted name is selected, and the
variables are derived from that service. -/
def ExtractVariables (compose : ComposeFile) : Variables :=
  if compose.services = [] then {}
  else
    let serviceNames := compose.services.map Prod.fst
    let sorted := sortStrings serviceNames
    let firstServiceName := sorted.headD []
    let firstService := (compose.services.lookup firstServiceName).getD {}
    { serviceName := firstServiceName
      containerName :=
        if firstService.containerName ≠ [] then firstService.containerName
        else firstServiceName
      firstPort :=
        match firstService.ports with
        | [] => []
        | p :: _ => extractHostPort p
      imageOrg := (extractImageInfo firstService.image).1
      imageName := (extractImageInfo firstService.image).2 }

example : extractHostPort "3000".data = "3000".data := by decide
example : extractHostPort "3000:8080".data = "3000".data := by decide
example : extractHostPort "0.0.0.0:3000:8080".data = "3000".data := by decide
example : extractHostPort "127.0.0.1:9000:9000/udp".data = "9000".data := by decide
example : extractImageInfo "alpine:latest".data = ("alpine".data, "alpine".data) := by decide
example : extractImageInfo "ghcr.io/lobehub/lobe-chat:main".data = ("lobehub".data, "lobe-chat".data) := by decide
example : extractImageInfo "".data = ([], []) := by decide

/-! ## Go `strings.ReplaceAll` -/

/-- Go `strings.ReplaceAll s pat rep` for a nonempty pattern: scan left to
right, replace each leftmost non-overlapping occurrence of `pat` by `rep`,
and continue after the replaced occurrence (the inserted `rep` is not
rescanned).  For `pat = []` this returns `s` unchanged (the guard fails);
the source only ever replaces nonempty placeholder tokens. -/
def replaceAllFuel (pat rep : Str) : Nat → Str → Str
  | _, [] => []
  | 0, s => s
  | Nat.succ fuel, a :: rest =>
    if pat <+: (a :: rest) ∧ pat ≠ [] then
      rep ++ replaceAllFuel pat rep fuel (List.drop (pat.length - 1) rest)
    else
      a :: replaceAllFuel pat rep fuel rest

theorem replaceAllFuel_irrel (pat rep : Str) : ∀ (f₁ f₂ : Nat) (s : Str),
    s.length ≤ f₁ → s.length ≤ f₂ →
    replaceAllFuel pat rep f₁ s = replaceAllFuel pat rep f₂ s := by
  intro f₁
  induction f₁ with
  | zero =>
    intro f₂ s h₁ _
    rcases s with _ | ⟨a, rest⟩
    · cases f₂ <;> rfl
    · simp at h₁
  | succ f ih =>
    intro f₂ s h₁ h₂
    rcases s with _ | ⟨a, rest⟩
    · cases f₂ <;> rfl
    · rcases f₂ with _ | g
      · simp at h₂
      · simp only [replaceAllFuel]
        simp only [List.length_cons, Nat.succ_le_succ_iff] at h₁ h₂
        by_cases hcond : pat <+: (a :: rest) ∧ pat ≠ []
        · rw [if_pos hcond, if_pos hcond,
            ih g _ (le_trans (by simp only [List.length_drop]; omega) h₁)
              (le_trans (by simp only [List.length_drop]; omega) h₂)]
        · rw [if_neg hcond, if_neg hcond, ih g rest h₁ h₂]

/-- Entry point: `replaceAll pat rep s` with fuel `s.length`, which always
suffices. -/
def replaceAll (pat rep s : Str) : Str := replaceAllFuel pat rep s.length s

theorem replaceAll_nil (pat rep : Str) : replaceAll pat rep [] = [] := rfl

theorem replaceAll_cons_pos {pat : Str} (rep : Str) {a : Char} {rest : Str}
    (h : pat <+: (a :: rest)) (hne : pat ≠ []) :
    replaceAll pat rep (a :: rest) =
      rep ++ replaceAll pat rep (List.drop (pat.length - 1) rest) := by
  show replaceAllFuel pat rep (a :: rest).length (a :: rest) = _
  rw [List.length_cons]
  show (if pat <+: (a :: rest) ∧ pat ≠ [] then
      rep ++ replaceAllFuel pat rep rest.length (List.drop (pat.length - 1) rest)
    else a :: replaceAllFuel pat rep rest.length rest) = _
  rw [if_pos ⟨h, hne⟩]
  unfold replaceAll
  rw [replaceAllFuel_irrel pat rep rest.length (List.drop (pat.length - 1) rest).length
    (List.drop (pat.length - 1) rest) (by simp [List.length_drop]) (le_refl _)]

theorem replaceAll_cons_neg {pat : Str} (rep : Str) {a : Char} {rest : Str}
    (h : ¬ (pat <+: (a :: rest) ∧ pat ≠ [])) :
    replaceAll pat rep (a :: rest) = a :: replaceAll pat rep rest := by
  show replaceAllFuel pat rep (a :: rest).length (a :: rest) = _
  rw [List.length_cons]
  show (if pat <+: (a :: rest) ∧ pat ≠ [] then
      rep ++ replaceAllFuel pat rep rest.length (List.drop (pat.length - 1) rest)
    else a :: replaceAllFuel pat rep rest.length rest) = _
  rw [if_neg h]
  rfl

theorem replaceAll_append_self {pat : Str} (rep : Str) (t : Str) (hne : pat ≠ []) :
    replaceAll pat rep (pat ++ t) = rep ++ replaceAll pat rep t := by
  rcases pat with _ | ⟨p, ps⟩
  · exact absurd rfl hne
  · rw [List.cons_append, replaceAll_cons_pos rep (by simp [List.prefix_append]) hne]
    congr 1
    congr 1
    simp only [List.length_cons, Nat.add_sub_cancel]
    exact List.drop_left ps t

/-! ## internal/generator: template substitution and manifest generation -/

/-- The three placeholder tokens of `internal/generator/replacer.go`. -/
def serviceNamePH : Str := "${SERVICE_NAME}".data

/-- Placeholder for the container name. -/
def containerNamePH : Str := "${CONTAINER_NAME}".data

/-- Placeholder for the first host port. -/
def firstPortPH : Str := "${FIRST_PORT}".data

/-- The `replacements` map built by `ReplaceVariables`, written here in the
order of the Go map literal.  Go iterates this 3-entry map in an unspecified
order; theorems below quantify over permutations of this canonical list. -/
def replacements (vars : Variables) : List (Str × Str) :=
  [(serviceNamePH, vars.serviceName),
   (containerNamePH, vars.containerName),
   (firstPortPH, vars.firstPort)]

/-- `ReplaceVariables` from `internal/generator/replacer.go`, with the map
iteration order made explicit: successively apply `strings.ReplaceAll` for
each (placeholder, value) pair in the order given by `ord`. -/
def ReplaceVariablesOrd (ord : List (Str × Str)) (content : Str) : Str :=
  ord.foldl (fun acc pv => replaceAll pv.1 pv.2 acc) content

/-- A value of the `manifest` sub-object (`map[string]interface{}` in Go),
restricted to the dynamic types `formatManifestValue` distinguishes. -/
inductive ManifestValue where
  | str (s : Str)
  | int (n : Int)
  | bool (b : Bool)
deriving DecidableEq

/-- `formatManifestValue` from the manifest generator: strings verbatim,
numbers via default formatting, booleans as `yes`/`no`. -/
def formatManifestValue : ManifestValue → Str
  | .str s => s
  | .int n => (toString n).data
  | .bool true => "yes".data
  | .bool false => "no".data

/-- `ManifestDefaults` from the manifest generator, in the order of the Go
map literal (its iteration order is irrelevant: the four keys are distinct
and each is written at most once). -/
def ManifestDefaults : List (Str × Str) :=
  [("arch".data, "x86_64".data),
   ("source".data, "thirdparty".data),
   ("desktop_uidir".data, "ui".data),
   ("version".data, "1.0.0".data)]

/-- `ManifestFieldOrder` from the manifest generator. -/
def ManifestFieldOrder : List Str :=
  ["appname".data, "version".data, "display_name".data, "desc".data,
   "arch".data, "source".data, "maintainer".data, "maintainer_url".data,
   "distributor".data, "distributor_url".data, "os_min_ver".data,
   "beta".data, "reloadui".data, "desktop_uidir".data,
   "desktop_applaunchname".data, "changelog".data, "ctl_stop".data,
   "checkport".data, "install_type".data, "service_port".data]

/-- Write-or-overwrite on the model of the Go `result` map: if the key is
present its value is replaced, otherwise the pair is appended.  Keeps the
key list duplicate-free. -/
def storeSet (s : List (Str × Str)) (k v : Str) : List (Str × Str) :=
  if k ∈ s.map Prod.fst then
    s.map (fun p => if p.1 = k then (k, v) else p)
  else
    s ++ [(k, v)]

/-- The `result` map of `GenerateManifest` after all resolution steps:
static defaults, variable-derived defaults, image/port defaults, the explicit
manifest entries (formatted and variable-substituted using iteration order
`ord` for the replacements map), and the `desktop_applaunchname` synthesis. -/
def resolveManifest (ord : List (Str × Str))
    (manifest : List (Str × ManifestValue)) (vars : Variables) :
    List (Str × Str) :=
  let r0 : List (Str × Str) :=
    ManifestDefaults.foldl (fun acc kv => storeSet acc kv.1 kv.2) []
  let r1 :=
    if vars.serviceName ≠ [] then
      storeSet (storeSet (storeSet r0 "appname".data vars.serviceName)
          "display_name".data vars.serviceName)
        "desktop_applaunchname".data (vars.serviceName ++ ".Application".data)
    else r0
  let r2 :=
    if vars.imageOrg ≠ [] then
      storeSet (storeSet r1 "maintainer".data vars.imageOrg)
        "distributor".data vars.imageOrg
    else r1
  let r3 :=
    if vars.imageName ≠ [] then storeSet r2 "desc".data vars.imageName
    else if vars.serviceName ≠ [] then storeSet r2 "desc".data vars.serviceName
    else r2
  let r4 :=
    if vars.firstPort ≠ [] then storeSet r3 "service_port".data vars.firstPort
    else r3
  let r5 := manifest.foldl
    (fun acc kv =>
      storeSet acc kv.1 (ReplaceVariablesOrd ord (formatManifestValue kv.2)))
    r4
  if "desktop_applaunchname".data ∉ manifest.map Prod.fst ∧
      "desktop_appname".data ∉ manifest.map Prod.fst then
    match List.lookup "appname".data r5 with
    | some a =>
      if a ≠ [] then
        storeSet r5 "desktop_applaunchname".data (a ++ ".Application".data)
      else r5
    | none => r5
  else r5

/-- `formatManifestLine`: keys shorter than 16 characters are padded with
spaces to a 16-character column before `"= "`; longer keys get `" = "`. -/
def formatManifestLine (key value : Str) : Str :=
  if key.length < 16 then
    key ++ List.replicate (16 - key.length) ' ' ++ "= ".data ++ value
  else
    key ++ " = ".data ++ value

/-- `strings.Join(lines, "\n") + "\n"`. -/
def joinLines (lines : List Str) : Str :=
  List.intercalate ['\n'] lines ++ ['\n']

/-- `GenerateManifest` with the iteration order of the replacements map made
explicit (`ord`).  Emits the canonically-ordered fields with non-empty
values (tracking `addedKeys` as in the Go loop), then the remaining non-empty
keys sorted with `sort.Strings`, joined by newlines with a final newline. -/
def GenerateManifestOrd (ord : List (Str × Str))
    (manifest : List (Str × ManifestValue)) (vars : Variables) : Str :=
  let result := resolveManifest ord manifest vars
  let firstPass := ManifestFieldOrder.foldl
    (fun (acc : List Str × List Str) key =>
      match List.lookup key result with
      | some v =>
        if v ≠ [] then (acc.1 ++ [formatManifestLine key v], acc.2 ++ [key])
        else acc
      | none => acc)
    ([], [])
  let remainingKeys := (result.map Prod.fst).filter
    (fun k => k ∉ firstPass.2 ∧ (List.lookup k result).getD [] ≠ [])
  let sortedRemaining := sortStrings remainingKeys
  joinLines (firstPass.1 ++
    sortedRemaining.map (fun k => formatManifestLine k ((List.lookup k result).getD [])))

/-- `GetManifestAppname`: the formatted `appname` manifest value taken
verbatim (no variable substitution), falling back to the service name. -/
def GetManifestAppname (manifest : List (Str × ManifestValue))
    (vars : Variables) : Str :=
  match List.lookup "appname".data manifest with
  | some v => formatManifestValue v
  | none => vars.serviceName

/-! ## internal/generator: privilege, resource and UI config generators -/

/-- `GeneratePrivilege` from `internal/generator`: the `config/privilege`
JSON content produced by `json.MarshalIndent` on the fixed `PrivilegeConfig`
structure (run-as `package`, username/groupname = service name, both carrying
`omitempty`), plus the trailing newline added by `marshalJSON`.  JSON string
escaping of the interpolated service name is not modelled. -/
def GeneratePrivilege (vars : Variables) : Str :=
  "\x7b\n    \"defaults\": \x7b\n        \"run-as\": \"package\"\n    \x7d".data
  ++ (if vars.serviceName = [] then []
      else ",\n    \"username\": \"".data ++ vars.serviceName
        ++ "\",\n    \"groupname\": \"".data ++ vars.serviceName ++ "\"".data)
  ++ "\n\x7d\n".data

/-- `GenerateResource` from `internal/generator`: the `config/resource` JSON
content (one docker project entry with name = service name and the fixed path
`docker`), serialized like `GeneratePrivilege`. -/
def GenerateResource (vars : Variables) : Str :=
  "\x7b\n    \"docker-project\": \x7b\n        \"projects\": [\n            \x7b\n                \"name\": \"".data
  ++ vars.serviceName
  ++ "\",\n                \"path\": \"docker\"\n            \x7d\n        ]\n    \x7d\n\x7d\n".data

/-- One UI entry of `internal/generator/ui.go` (`UIConfigEntry`); the Go
field `Type` is rendered here as `entryType`. -/
structure UIConfigEntry where
  title : Str
  icon : Str
  entryType : Str
  protocol : Str
  port : Str
  url : Str
  allUsers : Bool
deriving DecidableEq

/-- The default UI configuration built by `GenerateDefaultUIConfig`: a map
with the fixed top-level key `".url"` holding one entry keyed by
`ServiceName + ".Application"`. -/
structure UIConfig where
  entryKey : Str
  entry : UIConfigEntry
deriving DecidableEq

/-- `GenerateDefaultUIConfig` from `internal/generator/ui.go`, modelled up to
JSON serialization: the structured configuration it marshals.  Note the icon
field is the literal `"images/icon_{0}.png"` (underscore before the size
placeholder). -/
def GenerateDefaultUIConfig (vars : Variables) : UIConfig :=
  { entryKey := vars.serviceName ++ ".Application".data
    entry :=
      { title := vars.serviceName
        icon := "images/icon_{0}.png".data
        entryType := "url".data
        protocol := "http".data
        port := vars.firstPort
        url := "/".data
        allUsers := true } }

/-- The serialized `app/ui/config` text written by the writer: Go marshals
`GenerateDefaultUIConfig`'s structure with `json.MarshalIndent`.  The exact
bytes are immaterial to every claim (the writer theorems only compare this
content for identity); string escaping is not modelled. -/
def uiConfigContent (vars : Variables) : Str :=
  let c := GenerateDefaultUIConfig vars
  "\x7b\n    \".url\": \x7b\n        \"".data ++ c.entryKey
  ++ "\": \x7b\n            \"title\": \"".data ++ c.entry.title
  ++ "\",\n            \"icon\": \"".data ++ c.entry.icon
  ++ "\",\n            \"type\": \"".data ++ c.entry.entryType
  ++ "\",\n            \"protocol\": \"".data ++ c.entry.protocol
  ++ "\",\n            \"port\": \"".data ++ c.entry.port
  ++ "\",\n            \"url\": \"".data ++ c.entry.url
  ++ "\",\n            \"allUsers\": true\n        \x7d\n    \x7d\n\x7d\n".data

/-- Modelled from the spec: `GenerateMainScript` (the default-script
generator's source file is absent from `src/`; §4.2 of the spec says it
produces fixed executable shell boilerplate parameterized only by the
Variables).  The exact text is immaterial to every claim, which treat it as
an opaque deterministic function. -/
def GenerateMainScript (vars : Variables) : Str :=
  "#!/bin/bash\n# main entry point for ".data ++ vars.serviceName ++ "\n".data

/-! ## internal/builder: the file writer (`Writer`) -/

/-- The `x-fnpack` extension block as the builder consumes it: the `manifest`
sub-object and the path→content `Files` map (an association list here). -/
structure XFnpackModel where
  manifest : List (Str × ManifestValue) := []
  files : List (Str × Str) := []

/-- `Writer.hasFile`: whether the extension block defines a file at `path`
(exact key membership in the `Files` map). -/
def hasFile (files : List (Str × Str)) (path : Str) : Bool :=
  decide (path ∈ files.map Prod.fst)

/-- `filepath.Join`, modelled as `/`-concatenation (every path the source
joins is a clean relative path, so no path cleaning is required). -/
def pathJoin (a b : Str) : Str := a ++ "/".data ++ b

/-- `Builder.writeAllFiles` as a pure write trace: the ordered list of
(path, content) writes it performs.  `ord` is the iteration order of the
replacements map, `lifecycle` the (name, content) map returned by
`GenerateLifecycleScripts` (source file absent from `src/`; the theorems
quantify over it), `cleanedCompose` the cleaned compose text produced by
`parser.CleanComposeFile`.  Write order follows the source: manifest, custom
files, privilege/resource configs (skip-if-present), main + lifecycle scripts
(skip-if-present), UI config (skip-if-present), cleaned compose, LICENSE. -/
def writeAllFiles (ord : List (Str × Str)) (appDir : Str) (x : XFnpackModel)
    (lifecycle : List (Str × Str)) (vars : Variables)
    (cleanedCompose : Str) : List (Str × Str) :=
  let fs1 : List (Str × Str) :=
    [(pathJoin appDir "manifest".data, GenerateManifestOrd ord x.manifest vars)]
  let fs2 := x.files.foldl
    (fun fs pc => fs ++ [(pathJoin appDir pc.1, ReplaceVariablesOrd ord pc.2)]) fs1
  let fs3 :=
    if hasFile x.files "config/privilege".data then fs2
    else fs2 ++ [(pathJoin appDir "config/privilege".data, GeneratePrivilege vars)]
  let fs4 :=
    if hasFile x.files "config/resource".data then fs3
    else fs3 ++ [(pathJoin appDir "config/resource".data, GenerateResource vars)]
  let fs5 :=
    if hasFile x.files "cmd/main".data then fs4
    else fs4 ++ [(pathJoin appDir "cmd/main".data, GenerateMainScript vars)]
  let fs6 := lifecycle.foldl
    (fun fs nc =>
      if hasFile x.files ("cmd/".data ++ nc.1) then fs
      else fs ++ [(pathJoin appDir ("cmd/".data ++ nc.1), nc.2)]) fs5
  let fs7 :=
    if hasFile x.files "app/ui/config".data then fs6
    else fs6 ++ [(pathJoin appDir "app/ui/config".data, uiConfigContent vars)]
  let fs8 := fs7 ++
    [(pathJoin appDir "app/docker/docker-compose.yaml".data, cleanedCompose)]
  fs8 ++ [(pathJoin appDir "LICENSE".data, [])]

/-- The contents written at path `p`, in write order (the file system ends up
holding the last one). -/
def writesAt (fs : List (Str × Str)) (p : Str) : List Str :=
  (fs.filter (fun e => decide (e.1 = p))).map Prod.snd

/-! ## internal/builder/icon.go: the icon processor -/

/-- A 16-bit premultiplied RGBA colour (`image/color`). -/
structure RGBA where
  r : Nat
  g : Nat
  b : Nat
  a : Nat
deriving DecidableEq

/-- `color.Transparent`. -/
def colorTransparent : RGBA := ⟨0, 0, 0, 0⟩

/-- Porter-Duff source-over compositing as implemented by Go's `draw.Over`:
`dst' = dst * (0xffff - src.a) / 0xffff + src`, componentwise. -/
def overCompose (s d : RGBA) : RGBA :=
  let m := 65535 - s.a
  ⟨d.r * m / 65535 + s.r, d.g * m / 65535 + s.g,
   d.b * m / 65535 + s.b, d.a * m / 65535 + s.a⟩

/-- An `image.Image`, with bounds normalised to origin (the source reads
pixels relative to `bounds.Min`, so only width, height and the pixel grid
matter). -/
structure GoImage where
  width : Nat
  height : Nat
  pix : Nat → Nat → RGBA

/-- `IconHandler.squareImage`: a source whose width equals its height is
returned as-is; otherwise a square canvas of the larger dimension is created,
filled transparent, and the source is composited (`draw.Over`) at offset
`((size-width)/2, (size-height)/2)` with integer division. -/
def squareImage (src : GoImage) : GoImage :=
  if src.width = src.height then src
  else
    let size := if src.height > src.width then src.height else src.width
    let offsetX := (size - src.width) / 2
    let offsetY := (size - src.height) / 2
    { width := size
      height := size
      pix := fun x y =>
        if offsetX ≤ x ∧ x < offsetX + src.width ∧
            offsetY ≤ y ∧ y < offsetY + src.height then
          overCompose (src.pix (x - offsetX) (y - offsetY)) colorTransparent
        else colorTransparent }

/-- `IconHandler.ResizeIcon`, modelled from the spec up to the resampling
kernel: the library call `imaging.Resize src w h imaging.Lanczos` produces a
`w`×`h` image; no claim inspects the resampled pixels, so the kernel is
modelled as plain nearest-neighbour sampling. -/
def ResizeIcon (src : GoImage) (w h : Nat) : GoImage :=
  { width := w
    height := h
    pix := fun x y => src.pix (x * src.width / w) (y * src.height / h) }

/-- The effectful environment of the icon processor: the input-directory
listing (`os.ReadDir`, which can fail), the image loader (`imaging.Open`,
combining open and decode failures), and the icon writer (`saveIcon`,
combining directory-creation, file-creation and PNG-encode failures). -/
structure IconEnv where
  inputDir : Str
  appDir : Str
  dirEntries : Except Str (List (Str × Bool))
  openImage : Str → Except Str GoImage
  saveIcon : Str → GoImage → Except Str Unit

/-- `IconHandler.FindIcon`: list the input directory (propagating a listing
failure as an error), and return the first non-directory entry whose
lower-cased name ends in `.png`; error when none matches. -/
def FindIcon (env : IconEnv) : Except Str Str :=
  match env.dirEntries with
  | .error e => .error ("failed to read input directory: ".data ++ e)
  | .ok entries =>
    match entries.find?
        (fun ent => !ent.2 && decide (".png".data <:+ ent.1.map Char.toLower)) with
    | some ent => .ok (pathJoin env.inputDir ent.1)
    | none => .error ("no .png file found in ".data ++ env.inputDir)

/-- The four icon outputs of `IconHandler.CopyIcons`: sizes and destination
paths, in write order. -/
def copyIconTargets (appDir : Str) : List (Nat × Nat × Str) :=
  [(64, 64, pathJoin appDir "ICON.PNG".data),
   (256, 256, pathJoin appDir "ICON_256.PNG".data),
   (64, 64, pathJoin appDir "app/ui/images/icon-64.png".data),
   (256, 256, pathJoin appDir "app/ui/images/icon-256.png".data)]

/-- The write loop of `IconHandler.CopyIcons`: resize then save each target,
aborting with a wrapped error at the first save failure. -/
def copyIconsLoop (env : IconEnv) (srcImg : GoImage) :
    List (Nat × Nat × Str) → Except Str Unit
  | [] => .ok ()
  | (w, h, dest) :: rest =>
    match env.saveIcon dest (ResizeIcon srcImg w h) with
    | .error e => .error ("failed to save icon ".data ++ dest ++ ": ".data ++ e)
    | .ok _ => copyIconsLoop env srcImg rest

/-- `IconHandler.CopyIcons`. -/
def CopyIcons (env : IconEnv) (srcImg : GoImage) : Except Str Unit :=
  copyIconsLoop env srcImg (copyIconTargets env.appDir)

/-- `IconHandler.ProcessIcons`: any `FindIcon` failure is swallowed (the
processor returns success and writes nothing); an open/decode failure is a
wrapped error; otherwise the squared image is resized and written, with any
save failure propagated. -/
def ProcessIcons (env : IconEnv) : Except Str Unit :=
  match FindIcon env with
  | .error _ => .ok ()
  | .ok iconPath =>
    match env.openImage iconPath with
    | .error e => .error ("failed to open icon: ".data ++ e)
    | .ok srcImg => CopyIcons env (squareImage srcImg)

/-! ## Claim C1: the host-port parsing rule -/

/-- The spec's stated parsing rule for C1, following its words: strip the
text after the LAST `/`, split the remainder on `:`, then apply the
sole/first/second/empty token rule. -/
def extractHostPortClaim (s : Str) : Str :=
  let remainder :=
    if '/' ∈ s then List.intercalate ['/'] ((splitOnChar '/' s).dropLast)
    else s
  match splitOnChar ':' remainder with
  | [p] => p
  | [p, _] => p
  | [_, p, _] => p
  | _ => []

/-- The amended parsing rule: strip everything from the FIRST `/` onward
(the Go code takes `strings.Split(portMapping, "/")[0]`), which agrees with
the spec's "text after the last `/`" only when the input has at most one
`/`; then split on `:` and apply the sole/first/second/empty token rule. -/
def extractHostPortAmended (s : Str) : Str :=
  let remainder := s.takeWhile (fun c => decide (c ≠ '/'))
  match splitOnChar ':' remainder with
  | [p] => p
  | [p, _] => p
  | [_, p, _] => p
  | _ => []

theorem splitOnChar_headD_eq_takeWhile (sep : Char) (s : Str) :
    (splitOnChar sep s).headD [] = s.takeWhile (fun c => decide (c ≠ sep)) := by
  induction s with
  | nil => simp [splitOnChar]
  | cons a rest ih =>
    simp only [splitOnChar]
    rcases h : splitOnChar sep rest with _ | ⟨hd, t⟩
    · exact absurd h (splitOnChar_ne_nil sep rest)
    · by_cases ha : a = sep
      · simp [ha, List.takeWhile]
      · simp only [if_neg ha, List.headD_cons, List.takeWhile]
        rw [h] at ih
        simp only [List.headD_cons] at ih
        simp [ha, ih]

/-- C1: the spec describes `extractHostPort` as stripping the text after the
last `/` before splitting on `:`.  The code strips everything from the first
`/` onward, and the two rules disagree on inputs with two or more slashes:
on `"1:2/3:4/udp"` the code returns `"1"` while the spec's rule yields
`"2/3"`. -/
theorem c1_host_port_counterexample :
    extractHostPort "1:2/3:4/udp".data = "1".data ∧
    extractHostPortClaim "1:2/3:4/udp".data = "2/3".data ∧
    extractHostPort "1:2/3:4/udp".data ≠ extractHostPortClaim "1:2/3:4/udp".data := by
  decide

/-- C1 (amended): for every port-mapping string, `extractHostPort` strips
everything from the FIRST `/` onward (which coincides with stripping the text
after the last `/` exactly when the input has at most one `/`), splits the
remainder on `:`, and returns the sole token, the first of two, the second of
three, and the empty string otherwise; the function is total, and
`"127.0.0.1:9000:9000/udp"` yields `"9000"` while `"3000"` yields `"3000"`. -/
theorem c1_host_port_amended :
    (∀ s : Str, extractHostPort s = extractHostPortAmended s) ∧
    extractHostPort "127.0.0.1:9000:9000/udp".data = "9000".data ∧
    extractHostPort "3000".data = "3000".data := by
  refine ⟨fun s => ?_, by decide, by decide⟩
  unfold extractHostPort extractHostPortAmended
  rw [splitOnChar_headD_eq_takeWhile]

/-! ## Claim C2: the image parsing rule -/

/-- The spec's stated parsing rule for C2, following its words: empty input
gives two empty strings; otherwise, when the string contains a `:` with no
`/` after it (i.e. the text after the LAST `:` is slash-free), the trailing
`:tag` is stripped; the remainder is split on `/` and the result is the sole
segment twice, (first, second) for two segments, and (second-to-last, last)
for three or more. -/
def extractImageInfoSpec (image : Str) : Str × Str :=
  if image = [] then ([], [])
  else
    let tagRev := image.reverse.takeWhile (fun c => decide (c ≠ ':'))
    let stripped :=
      if ':' ∈ image ∧ '/' ∉ tagRev then
        (image.reverse.drop (tagRev.length + 1)).reverse
      else image
    let parts := splitOnChar '/' stripped
    if parts.length = 1 then (parts.headD [], parts.headD [])
    else if parts.length = 2 then (parts.headD [], parts.tail.headD [])
    else (parts.dropLast.getLast?.getD [], parts.getLast?.getD [])

theorem splitAtLastColon_eq_none_iff (s : Str) :
    splitAtLastColon s = none ↔ ':' ∉ s := by
  induction s with
  | nil => simp [splitAtLastColon]
  | cons c rest ih =>
    simp only [splitAtLastColon]
    rcases hr : splitAtLastColon rest with _ | ⟨pre, suf⟩
    · have hnr : ':' ∉ rest := ih.mp hr
      by_cases hc : c = ':'
      · rw [if_pos hc]
        exact iff_of_false (by simp) (by simp [hc])
      · rw [if_neg hc]
        simp only [List.mem_cons, not_or]
        exact iff_of_true trivial ⟨fun h => hc h.symm, hnr⟩
    · have hmem : ':' ∈ rest := by
        by_contra hn
        rw [ih.mpr hn] at hr
        exact Option.noConfusion hr
      exact iff_of_false (by simp) (by simp [hmem])

theorem splitAtLastColon_some (s pre suf : Str)
    (h : splitAtLastColon s = some (pre, suf)) :
    ∃ t, suf = ':' :: t ∧ s = pre ++ ':' :: t ∧ ':' ∉ t := by
  induction s generalizing pre suf with
  | nil => simp [splitAtLastColon] at h
  | cons c rest ih =>
    simp only [splitAtLastColon] at h
    rcases hr : splitAtLastColon rest with _ | ⟨pre', suf'⟩
    · rw [hr] at h
      by_cases hc : c = ':'
      · rw [if_pos hc] at h
        simp only [Option.some.injEq, Prod.mk.injEq] at h
        obtain ⟨hpre, hsuf⟩ := h
        refine ⟨rest, ?_, ?_, (splitAtLastColon_eq_none_iff rest).mp hr⟩
        · rw [← hsuf, hc]
        · rw [← hpre, hc]
          simp
      · rw [if_neg hc] at h
        exact Option.noConfusion h
    · rw [hr] at h
      simp only [Option.some.injEq, Prod.mk.injEq] at h
      obtain ⟨hpre, hsuf⟩ := h
      obtain ⟨t, ht, hs, hnot⟩ := ih pre' suf' hr
      refine ⟨t, hsuf ▸ ht, ?_, hnot⟩
      rw [← hpre, hs]
      simp

theorem splitAtLastColon_cons (c : Char) (rest : Str) :
    splitAtLastColon (c :: rest) =
      match splitAtLastColon rest with
      | some (pre, suf) => some (c :: pre, suf)
      | none => if c = ':' then some ([], c :: rest) else none := rfl

theorem splitAtLastColon_append (pre t : Str) (hnot : ':' ∉ t) :
    splitAtLastColon (pre ++ ':' :: t) = some (pre, ':' :: t) := by
  induction pre with
  | nil =>
    rw [List.nil_append, splitAtLastColon_cons,
      (splitAtLastColon_eq_none_iff t).mpr hnot]
    simp
  | cons c pre' ih =>
    rw [List.cons_append, splitAtLastColon_cons, ih]

theorem takeWhile_append_stop {α : Type} {p : α → Bool} (xs : List α) (c : α)
    (ys : List α) (hxs : ∀ x ∈ xs, p x = true) (hc : p c = false) :
    (xs ++ c :: ys).takeWhile p = xs := by
  induction xs with
  | nil => simp [List.takeWhile, hc]
  | cons a xs' ih =>
    rw [List.cons_append, List.takeWhile_cons_of_pos (hxs a (by simp)),
      ih (fun x hx => hxs x (by simp [hx]))]

theorem headD_eq_head?_getD {α : Type} (l : List α) (d : α) :
    l.headD d = l.head?.getD d := by
  cases l <;> rfl

theorem reverse_tail_eq_dropLast_reverse {α : Type} (l : List α) :
    l.reverse.tail = l.dropLast.reverse := by
  rcases l.eq_nil_or_concat with rfl | ⟨ys, y, rfl⟩
  · simp
  · simp

theorem rev_headD_eq_getLast? {α : Type} (l : List α) (d : α) :
    l.reverse.headD d = l.getLast?.getD d := by
  rw [headD_eq_head?_getD, List.head?_reverse]

theorem rev_tail_headD_eq_dropLast_getLast? {α : Type} (l : List α) (d : α) :
    l.reverse.tail.headD d = l.dropLast.getLast?.getD d := by
  rw [reverse_tail_eq_dropLast_reverse, rev_headD_eq_getLast?]

theorem stripTag_source_eq_spec (image : Str) :
    (match splitAtLastColon image with
     | some (pre, suf) => if '/' ∈ suf then image else pre
     | none => image) =
    (if ':' ∈ image ∧ '/' ∉ image.reverse.takeWhile (fun c => decide (c ≠ ':')) then
      (image.reverse.drop
        ((image.reverse.takeWhile (fun c => decide (c ≠ ':'))).length + 1)).reverse
     else image) := by
  rcases h : splitAtLastColon image with _ | ⟨pre, suf⟩
  · have hnc : ':' ∉ image := (splitAtLastColon_eq_none_iff image).mp h
    simp [hnc]
  · obtain ⟨t, ht, himg, hnot⟩ := splitAtLastColon_some _ _ _ h
    have lhs_eq : (match some (pre, suf) with
        | some (p, s) => if '/' ∈ s then image else p
        | none => image) = if '/' ∈ suf then image else pre := rfl
    rw [lhs_eq]
    have hrev : image.reverse = (t.reverse ++ [':']) ++ pre.reverse := by
      rw [himg]
      simp
    have htag : image.reverse.takeWhile (fun c => decide (c ≠ ':')) = t.reverse := by
      rw [hrev, List.append_assoc, List.singleton_append]
      exact takeWhile_append_stop _ _ _
        (fun x hx => by
          simp only [decide_eq_true_eq]
          exact fun hcontr => hnot (hcontr ▸ List.mem_reverse.mp hx))
        (by simp)
    have hcol : ':' ∈ image := by
      rw [himg]
      simp
    have hsuf : ('/' ∈ suf) ↔ '/' ∈ t.reverse := by
      rw [ht]
      simp [List.mem_reverse]
    by_cases hsl : '/' ∈ t.reverse
    · rw [if_pos (hsuf.mpr hsl)]
      rw [if_neg (by
        rw [htag]
        intro hcontr
        exact hcontr.2 hsl)]
    · rw [if_neg (fun hcontr => hsl (hsuf.mp hcontr))]
      rw [if_pos (by
        rw [htag]
        exact ⟨hcol, hsl⟩)]
      rw [htag, hrev]
      have hlen : (t.reverse ++ [':']).length = t.reverse.length + 1 := by simp
      rw [show t.reverse.length + 1 = (t.reverse ++ [':']).length from hlen.symm,
        List.drop_left, List.reverse_reverse]

theorem imageSegments_source_eq_spec (parts : List Str) :
    (match parts with
     | [] => (([] : Str), ([] : Str))
     | [p] => (p, p)
     | [o, n] => (o, n)
     | _ => ((parts.reverse.tail).headD [], parts.reverse.headD [])) =
    (if parts.length = 1 then (parts.headD [], parts.headD [])
     else if parts.length = 2 then (parts.headD [], parts.tail.headD [])
     else (parts.dropLast.getLast?.getD [], parts.getLast?.getD [])) := by
  rcases parts with _ | ⟨a, _ | ⟨b, _ | ⟨c, t⟩⟩⟩
  · simp
  · simp
  · simp
  · simp only [List.length_cons]
    rw [if_neg (by omega), if_neg (by omega)]
    rw [rev_tail_headD_eq_dropLast_getLast?, rev_headD_eq_getLast?]

/-- C2: for every image reference, `extractImageInfo` implements exactly the
spec's rule: empty input gives `("","")`; otherwise a trailing `:tag` whose
colon is not followed by a `/` is stripped (registry-port colons, which are
followed by `/`, are preserved), the remainder is split on `/`, and the
result is the sole segment twice, (first, second) for two segments, and
(second-to-last, last) for three or more; in particular the aliyuncs example
yields `("fnapp", "trim-chromium")`. -/
theorem c2_image_info_conformance :
    (∀ image : Str, extractImageInfo image = extractImageInfoSpec image) ∧
    extractImageInfo "registry.cn-guangzhou.aliyuncs.com/fnapp/trim-chromium:latest".data
      = ("fnapp".data, "trim-chromium".data) := by
  refine ⟨fun image => ?_, by decide⟩
  by_cases himg : image = []
  · simp [himg, extractImageInfo, extractImageInfoSpec]
  · simp only [extractImageInfo, extractImageInfoSpec, if_neg himg]
    rw [← stripTag_source_eq_spec]
    exact imageSegments_source_eq_spec _

/-! ## Claim C7: variable extraction -/

theorem sortStrings_perm (l : List Str) : (sortStrings l).Perm l :=
  List.perm_insertionSort _ l

theorem sortStrings_ne_nil (l : List Str) (h : l ≠ []) :
    sortStrings l ≠ [] := by
  intro hms
  have hp := sortStrings_perm l
  rw [hms] at hp
  exact h hp.symm.eq_nil

theorem sortStrings_headD_mem (l : List Str) (h : l ≠ []) :
    (sortStrings l).headD [] ∈ l := by
  have hp := sortStrings_perm l
  rcases hms : sortStrings l with _ | ⟨x, t⟩
  · exact absurd hms (sortStrings_ne_nil l h)
  · rw [hms] at hp
    rw [List.headD_cons]
    exact hp.mem_iff.mp (List.mem_cons_self x t)

theorem sortStrings_headD_le (l : List Str) (x : Str) (hx : x ∈ l) :
    (sortStrings l).headD [] ≤ x := by
  have hp := sortStrings_perm l
  have hsorted := List.sorted_insertionSort (α := Str) (· ≤ ·) l
  rcases hms : sortStrings l with _ | ⟨y, t⟩
  · rw [hms] at hp
    exact absurd (hp.symm.mem_iff.mp hx) (List.not_mem_nil x)
  · rw [hms] at hp
    rw [show l.insertionSort (· ≤ ·) = sortStrings l from rfl, hms] at hsorted
    rw [List.headD_cons]
    have hxms : x ∈ y :: t := hp.symm.mem_iff.mp hx
    rcases List.mem_cons.mp hxms with rfl | hxt
    · exact le_refl x
    · exact (List.pairwise_cons.mp hsorted).1 x hxt

theorem lookup_cons_eq {β : Type} (k a : Str) (c : β) (t : List (Str × β)) :
    List.lookup k ((a, c) :: t) = if k = a then some c else List.lookup k t := by
  rw [List.lookup_cons]
  by_cases hk : k = a
  · rw [if_pos hk, show (k == a) = true from beq_iff_eq.mpr hk]
  · rw [if_neg hk, show (k == a) = false from beq_eq_false_iff_ne.mpr hk]

theorem lookup_eq_none_iff_not_mem {β : Type} (l : List (Str × β)) (k : Str) :
    l.lookup k = none ↔ k ∉ l.map Prod.fst := by
  induction l with
  | nil => simp
  | cons p t ih =>
    obtain ⟨a, c⟩ := p
    rw [lookup_cons_eq]
    by_cases hk : k = a
    · rw [if_pos hk]
      have hmem : k ∈ List.map Prod.fst ((a, c) :: t) := by
        rw [List.map_cons, hk]
        exact List.mem_cons_self a _
      exact iff_of_false (fun hc => Option.noConfusion hc) (fun hc => hc hmem)
    · rw [if_neg hk]
      simp only [List.map_cons, List.mem_cons, not_or]
      exact ⟨fun h => ⟨hk, ih.mp h⟩, fun h => ih.mpr h.2⟩

theorem lookup_mem_of_mem_keys {β : Type} (l : List (Str × β)) (k : Str)
    (h : k ∈ l.map Prod.fst) : ∃ b, l.lookup k = some b := by
  rcases hl : l.lookup k with _ | b
  · exact absurd h ((lookup_eq_none_iff_not_mem l k).mp hl)
  · exact ⟨b, rfl⟩

theorem mem_of_lookup_eq_some {β : Type} (l : List (Str × β)) (k : Str) (b : β)
    (h : l.lookup k = some b) : (k, b) ∈ l := by
  induction l with
  | nil => simp [List.lookup] at h
  | cons p t ih =>
    obtain ⟨a, c⟩ := p
    rw [lookup_cons_eq] at h
    by_cases hk : k = a
    · rw [if_pos hk] at h
      simp only [Option.some.injEq] at h
      exact List.mem_cons.mpr (Or.inl (by rw [hk, h]))
    · rw [if_neg hk] at h
      exact List.mem_cons_of_mem _ (ih h)

theorem lookup_eq_some_of_mem_nodup {β : Type} (l : List (Str × β)) (k : Str)
    (b : β) (hnd : (l.map Prod.fst).Nodup) (hmem : (k, b) ∈ l) :
    l.lookup k = some b := by
  induction l with
  | nil => simp at hmem
  | cons p t ih =>
    obtain ⟨a, c⟩ := p
    rw [lookup_cons_eq]
    rcases List.mem_cons.mp hmem with heq | hmem'
    · simp only [Prod.mk.injEq] at heq
      rw [if_pos heq.1, heq.2]
    · by_cases hk : k = a
      · exfalso
        have : k ∈ t.map Prod.fst := List.mem_map.mpr ⟨(k, b), hmem', rfl⟩
        rw [List.map_cons] at hnd
        exact (List.nodup_cons.mp hnd).1 (hk ▸ this)
      · rw [if_neg hk]
        exact ih (List.nodup_cons.mp (List.map_cons _ _ _ ▸ hnd)).2 hmem'

theorem lookup_perm_nodup {β : Type} (l₁ l₂ : List (Str × β))
    (hp : l₁.Perm l₂) (hnd : (l₁.map Prod.fst).Nodup) (k : Str) :
    l₁.lookup k = l₂.lookup k := by
  have hnd₂ : (l₂.map Prod.fst).Nodup := (hp.map Prod.fst).nodup_iff.mp hnd
  rcases h1 : l₁.lookup k with _ | b
  · have hk := (lookup_eq_none_iff_not_mem l₁ k).mp h1
    have : k ∉ l₂.map Prod.fst := fun hc =>
      hk ((hp.map Prod.fst).mem_iff.mpr hc)
    exact ((lookup_eq_none_iff_not_mem l₂ k).mpr this).symm
  · have := mem_of_lookup_eq_some l₁ k b h1
    exact (lookup_eq_some_of_mem_nodup l₂ k b hnd₂ (hp.mem_iff.mp this)).symm

/-- A small concrete compose file whose services are declared in
non-alphabetical order. -/
def exampleCompose : ComposeFile :=
  { services := [("b".data, {}),
                 ("a".data, { containerName := "ct".data,
                              ports := ["8080:80".data] })] }

/-- `exampleCompose` with its two services listed in the other order. -/
def exampleComposeRev : ComposeFile :=
  { services := [("a".data, { containerName := "ct".data,
                              ports := ["8080:80".data] }),
                 ("b".data, {})] }

/-- C7: `ExtractVariables` returns all-empty Variables when the services map
is empty; otherwise it selects the service whose name sorts first in
ascending byte-wise lexicographic order, sets `ContainerName` to that
service's container name when non-empty and to the selected service name
otherwise, and sets `FirstPort` by parsing the first port-mapping entry
(empty when the service has no ports); the result is independent of the
declaration order of the services. -/
theorem c7_extract_variables :
    (∀ compose : ComposeFile, compose.services = [] →
      ExtractVariables compose = {}) ∧
    (∀ compose : ComposeFile, compose.services ≠ [] →
      (ExtractVariables compose).serviceName ∈ compose.services.map Prod.fst ∧
      (∀ n ∈ compose.services.map Prod.fst,
        (ExtractVariables compose).serviceName ≤ n) ∧
      (∃ svc, compose.services.lookup (ExtractVariables compose).serviceName
          = some svc ∧
        (ExtractVariables compose).containerName =
          (if svc.containerName ≠ [] then svc.containerName
           else (ExtractVariables compose).serviceName) ∧
        (ExtractVariables compose).firstPort =
          (match svc.ports with
           | [] => ([] : Str)
           | p :: _ => extractHostPort p))) ∧
    (∀ c₁ c₂ : ComposeFile, c₁.services.Perm c₂.services →
      (c₁.services.map Prod.fst).Nodup →
      ExtractVariables c₁ = ExtractVariables c₂) := by
  refine ⟨fun compose h => by simp [ExtractVariables, h],
    fun compose h => ?_, fun c₁ c₂ hp hnd => ?_⟩
  · have hmapne : compose.services.map Prod.fst ≠ [] := by
      simpa using h
    have hsv : (ExtractVariables compose).serviceName =
        (sortStrings (compose.services.map Prod.fst)).headD [] := by
      simp [ExtractVariables, h]
    have hmem := sortStrings_headD_mem (compose.services.map Prod.fst) hmapne
    obtain ⟨svc, hsvc⟩ := lookup_mem_of_mem_keys compose.services _ hmem
    refine ⟨by rw [hsv]; exact hmem,
      fun n hn => by rw [hsv]; exact sortStrings_headD_le _ n hn,
      svc, by rw [hsv]; exact hsvc, ?_, ?_⟩
    · have hsvc' := hsvc
      simp only [headD_eq_head?_getD] at hsvc'
      simp [ExtractVariables, h, hsvc']
    · have hsvc' := hsvc
      simp only [headD_eq_head?_getD] at hsvc'
      simp [ExtractVariables, h, hsvc']
  · by_cases he : c₁.services = []
    · have he₂ : c₂.services = [] := List.Perm.eq_nil (he ▸ hp).symm
      simp [ExtractVariables, he, he₂]
    · have he₂ : c₂.services ≠ [] := fun hc =>
        he (List.Perm.eq_nil (hc ▸ hp))
      have hnames : (c₁.services.map Prod.fst).Perm
          (c₂.services.map Prod.fst) := hp.map _
      have hms : sortStrings (c₁.services.map Prod.fst) =
          sortStrings (c₂.services.map Prod.fst) :=
        List.eq_of_perm_of_sorted
          ((sortStrings_perm _).trans (hnames.trans (sortStrings_perm _).symm))
          (List.sorted_insertionSort (α := Str) (· ≤ ·) _)
          (List.sorted_insertionSort (α := Str) (· ≤ ·) _)
      have hlk := lookup_perm_nodup c₁.services c₂.services hp hnd
      simp only [ExtractVariables, if_neg he, if_neg he₂, hms, hlk]

/-- Witness for C7 at concrete inputs: the empty compose file yields
all-empty Variables, a concrete two-service file selects a member service,
and reordering the two services does not change the extraction. -/
theorem c7_extract_variables_witness :
    ExtractVariables { services := [] } = {} ∧
    (ExtractVariables exampleCompose).serviceName ∈
      exampleCompose.services.map Prod.fst ∧
    ExtractVariables exampleCompose = ExtractVariables exampleComposeRev :=
  ⟨c7_extract_variables.1 _ rfl,
   (c7_extract_variables.2.1 exampleCompose (by decide)).1,
   c7_extract_variables.2.2 exampleCompose exampleComposeRev
     (List.Perm.swap _ _ _) (by decide)⟩

/-! ## Claim C8: icon squaring -/

theorem overCompose_transparent (s : RGBA) :
    overCompose s colorTransparent = s := by
  obtain ⟨r, g, b, a⟩ := s
  simp [overCompose, colorTransparent]

/-- C8: a source with equal width and height is returned unchanged (the very
same image value); a source with `width ≠ height` yields a square canvas of
side `max width height` whose pixels are the source content at offset
`((S-W)/2, (S-H)/2)` (integer division) and transparent everywhere else. -/
theorem c8_square_image :
    (∀ src : GoImage, src.width = src.height → squareImage src = src) ∧
    (∀ src : GoImage, src.width ≠ src.height →
      (squareImage src).width = max src.width src.height ∧
      (squareImage src).height = max src.width src.height ∧
      (∀ x y : Nat,
        (squareImage src).pix x y =
          if (max src.width src.height - src.width) / 2 ≤ x ∧
              x < (max src.width src.height - src.width) / 2 + src.width ∧
              (max src.width src.height - src.height) / 2 ≤ y ∧
              y < (max src.width src.height - src.height) / 2 + src.height then
            src.pix (x - (max src.width src.height - src.width) / 2)
              (y - (max src.width src.height - src.height) / 2)
          else colorTransparent)) := by
  have hsize : ∀ w h : Nat, (if h > w then h else w) = max w h := by
    intro w h
    by_cases hlt : h > w
    · rw [if_pos hlt, Nat.max_eq_right (le_of_lt hlt)]
    · rw [if_neg hlt, Nat.max_eq_left (Nat.le_of_not_lt hlt)]
  refine ⟨fun src h => by simp [squareImage, h], fun src h => ?_⟩
  refine ⟨by simp [squareImage, h, hsize], by simp [squareImage, h, hsize],
    fun x y => ?_⟩
  simp only [squareImage, if_neg h, hsize]
  by_cases hcond : (max src.width src.height - src.width) / 2 ≤ x ∧
      x < (max src.width src.height - src.width) / 2 + src.width ∧
      (max src.width src.height - src.height) / 2 ≤ y ∧
      y < (max src.width src.height - src.height) / 2 + src.height
  · rw [if_pos hcond, if_pos hcond, overCompose_transparent]
  · rw [if_neg hcond, if_neg hcond]

/-- A concrete 2×4 test image for the C8 witness. -/
def testIconImage : GoImage :=
  { width := 2, height := 4, pix := fun x y => ⟨x, y, 0, 65535⟩ }

/-- Witness for C8: a square image is returned unchanged, and the 2×4 test
image becomes a 4×4 canvas with the content shifted by (1, 0) and
transparent padding at the left edge. -/
theorem c8_square_image_witness :
    squareImage { width := 3, height := 3, pix := fun _ _ => colorTransparent }
      = { width := 3, height := 3, pix := fun _ _ => colorTransparent } ∧
    (squareImage testIconImage).width = 4 ∧
    (squareImage testIconImage).pix 1 1 = testIconImage.pix 0 1 ∧
    (squareImage testIconImage).pix 0 0 = colorTransparent := by
  refine ⟨c8_square_image.1 _ rfl, ?_, ?_, ?_⟩
  · rw [(c8_square_image.2 testIconImage (by decide)).1]
    decide
  · rw [(c8_square_image.2 testIconImage (by decide)).2.2 1 1]
    norm_num [testIconImage]
  · rw [(c8_square_image.2 testIconImage (by decide)).2.2 0 0]
    norm_num [testIconImage]

/-! ## Claim C9: default UI icon template vs written icon filenames -/

theorem ne_of_getElem?_ne {α : Type} {l₁ l₂ : List α} (i : Nat)
    (h : l₁[i]? ≠ l₂[i]?) : l₁ ≠ l₂ := fun hc => h (by rw [hc])

theorem pathJoin_inj (d a b : Str) (h : pathJoin d a = pathJoin d b) : a = b :=
  List.append_cancel_left h

theorem replaceAll_append_left_disjoint (pat rep : Str) (p0 : Char)
    (hp : pat.head? = some p0) (u w : Str) (hu : ∀ c ∈ u, c ≠ p0) :
    replaceAll pat rep (u ++ w) = u ++ replaceAll pat rep w := by
  induction u with
  | nil => simp
  | cons a u' ih =>
    have hneg : ¬ (pat <+: (a :: (u' ++ w)) ∧ pat ≠ []) := by
      rintro ⟨hpre, hne⟩
      rcases pat with _ | ⟨q, qs⟩
      · exact hne rfl
      · simp only [List.head?_cons, Option.some.injEq] at hp
        exact hu a (List.mem_cons_self a u')
          (((List.cons_prefix_cons.mp hpre).1).symm.trans hp)
    rw [List.cons_append, replaceAll_cons_neg rep hneg,
      ih (fun c hc => hu c (List.mem_cons_of_mem a hc)), List.cons_append]

theorem replaceAll_icon_template (size : Str) :
    replaceAll "{0}".data size "images/icon_{0}.png".data =
      "images/icon_".data ++ size ++ ".png".data := by
  have hsplit : "images/icon_{0}.png".data =
      "images/icon_".data ++ ("{0}".data ++ ".png".data) := by decide
  have hpng : replaceAll "{0}".data size ".png".data = ".png".data := by
    have h := replaceAll_append_left_disjoint "{0}".data size '{' rfl
      ".png".data [] (by decide)
    simpa using h
  rw [hsplit,
    replaceAll_append_left_disjoint "{0}".data size '{' rfl _ _ (by decide),
    replaceAll_append_self size ".png".data (by decide), hpng]
  simp [List.append_assoc]

/-- C9: the default UI config's icon field is the literal
`images/icon_{0}.png` (underscore before the size placeholder), while the
icon processor only writes the hyphenated files `icon-64.png` and
`icon-256.png`; consequently no instantiation of the template (for any size
string) equals any path the icon processor writes. -/
theorem c9_icon_template_mismatch :
    (∀ vars : Variables,
      (GenerateDefaultUIConfig vars).entry.icon = "images/icon_{0}.png".data) ∧
    (∀ (vars : Variables) (size appDir : Str), ∀ t ∈ copyIconTargets appDir,
      t.2.2 ≠ pathJoin appDir ("app/ui/".data ++
        replaceAll "{0}".data size (GenerateDefaultUIConfig vars).entry.icon)) := by
  refine ⟨fun vars => rfl, fun vars size appDir t ht => ?_⟩
  have hicon : (GenerateDefaultUIConfig vars).entry.icon =
      "images/icon_{0}.png".data := rfl
  rw [hicon, replaceAll_icon_template]
  simp only [copyIconTargets, List.mem_cons, List.not_mem_nil, or_false] at ht
  rcases ht with rfl | rfl | rfl | rfl
  · intro hc
    have h2 := pathJoin_inj _ _ _ hc
    have h3 := congrArg (fun l : Str => l[0]?) h2
    simp only at h3
    rw [List.getElem?_append_left (by decide)] at h3
    exact absurd h3 (by decide)
  · intro hc
    have h2 := pathJoin_inj _ _ _ hc
    have h3 := congrArg (fun l : Str => l[0]?) h2
    simp only at h3
    rw [List.getElem?_append_left (by decide)] at h3
    exact absurd h3 (by decide)
  · intro hc
    have h2 := pathJoin_inj _ _ _ hc
    have h5 := congrArg (fun l : Str => l[18]?) h2
    simp only at h5
    rw [List.getElem?_append_right (by decide),
      List.getElem?_append_left (by
        simp only [List.length_append, List.length_cons, List.length_nil]
        omega),
      List.getElem?_append_left (by
        simp only [List.length_cons, List.length_nil]
        omega)] at h5
    exact absurd h5 (by decide)
  · intro hc
    have h2 := pathJoin_inj _ _ _ hc
    have h5 := congrArg (fun l : Str => l[18]?) h2
    simp only at h5
    rw [List.getElem?_append_right (by decide),
      List.getElem?_append_left (by
        simp only [List.length_append, List.length_cons, List.length_nil]
        omega),
      List.getElem?_append_left (by
        simp only [List.length_cons, List.length_nil]
        omega)] at h5
    exact absurd h5 (by decide)

/-- Witness for C9 at a concrete input: with empty Variables, size `"64"`
and app directory `"o"`, the UI-images icon written by the processor differs
from the instantiated template path. -/
theorem c9_icon_template_mismatch_witness :
    (GenerateDefaultUIConfig {}).entry.icon = "images/icon_{0}.png".data ∧
    pathJoin "o".data "app/ui/images/icon-64.png".data ≠
      pathJoin "o".data ("app/ui/".data ++
        replaceAll "{0}".data "64".data (GenerateDefaultUIConfig {}).entry.icon) :=
  ⟨c9_icon_template_mismatch.1 {},
   c9_icon_template_mismatch.2 {} "64".data "o".data
     (64, 64, pathJoin "o".data "app/ui/images/icon-64.png".data) (by decide)⟩

/-! ## Claim C6: icon processor error propagation -/

/-- An environment whose input-directory listing fails. -/
def c6FailingEnv : IconEnv :=
  { inputDir := "in".data
    appDir := "out".data
    dirEntries := .error "io error".data
    openImage := fun _ => .error "unused".data
    saveIcon := fun _ _ => .ok () }

/-- C6: the claim says every read failure aborts the build and that the
initial "no icon found" case is the only non-fatal outcome.  But
`ProcessIcons` swallows every `FindIcon` failure, including a failed
input-directory listing (`os.ReadDir`): with a failing directory read it
still returns success. -/
theorem c6_icon_errors_counterexample :
    c6FailingEnv.dirEntries = Except.error "io error".data ∧
    ProcessIcons c6FailingEnv = Except.ok () := ⟨rfl, rfl⟩

theorem copyIconsLoop_ok_of_all (env : IconEnv) (srcImg : GoImage) :
    ∀ targets : List (Nat × Nat × Str),
      (∀ t ∈ targets,
        env.saveIcon t.2.2 (ResizeIcon srcImg t.1 t.2.1) = .ok ()) →
      copyIconsLoop env srcImg targets = .ok () := by
  intro targets
  induction targets with
  | nil => intro _; rfl
  | cons hd tl ih =>
    intro hall
    obtain ⟨w, h, dest⟩ := hd
    have hhd := hall (w, h, dest) (List.mem_cons_self _ _)
    simp only at hhd
    simp only [copyIconsLoop, hhd]
    exact ih (fun t ht => hall t (List.mem_cons_of_mem _ ht))

theorem copyIconsLoop_error_of_failure (env : IconEnv) (srcImg : GoImage) :
    ∀ targets : List (Nat × Nat × Str),
      (∃ t ∈ targets, ∃ e,
        env.saveIcon t.2.2 (ResizeIcon srcImg t.1 t.2.1) = .error e) →
      ∃ e', copyIconsLoop env srcImg targets = .error e' := by
  intro targets
  induction targets with
  | nil =>
    rintro ⟨t, ht, _⟩
    simp at ht
  | cons hd tl ih =>
    rintro ⟨t, ht, e, he⟩
    obtain ⟨w, h, dest⟩ := hd
    rcases hs : env.saveIcon dest (ResizeIcon srcImg w h) with es | u
    · exact ⟨"failed to save icon ".data ++ dest ++ ": ".data ++ es,
        by simp only [copyIconsLoop, hs]⟩
    · have hstep : copyIconsLoop env srcImg ((w, h, dest) :: tl) =
          copyIconsLoop env srcImg tl := by
        simp only [copyIconsLoop, hs]
      rcases List.mem_cons.mp ht with heq | htl
      · exfalso
        rw [heq] at he
        simp only at he
        rw [hs] at he
        exact Except.noConfusion he
      · rw [hstep]
        exact ih ⟨t, htl, e, he⟩

/-- C6 (amended): within the icon processor, the non-fatal outcomes are
exactly the `FindIcon` failures — a failed directory listing or the absence
of a `.png` file, both treated as "no icon" — in which case `ProcessIcons`
succeeds without writing anything; an open/decode failure on the located
icon propagates a wrapped error, and if every save succeeds the processor
succeeds while any save (create/encode/write) failure propagates an error. -/
theorem c6_icon_error_propagation :
    (∀ env : IconEnv, ∀ e, FindIcon env = .error e →
      ProcessIcons env = .ok ()) ∧
    (∀ env : IconEnv, ∀ p e, FindIcon env = .ok p →
      env.openImage p = .error e →
      ProcessIcons env = .error ("failed to open icon: ".data ++ e)) ∧
    (∀ env : IconEnv, ∀ p img, FindIcon env = .ok p →
      env.openImage p = .ok img →
      (∀ t ∈ copyIconTargets env.appDir,
        env.saveIcon t.2.2 (ResizeIcon (squareImage img) t.1 t.2.1) = .ok ()) →
      ProcessIcons env = .ok ()) ∧
    (∀ env : IconEnv, ∀ p img, FindIcon env = .ok p →
      env.openImage p = .ok img →
      (∃ t ∈ copyIconTargets env.appDir, ∃ e,
        env.saveIcon t.2.2 (ResizeIcon (squareImage img) t.1 t.2.1) = .error e) →
      ∃ e', ProcessIcons env = .error e') := by
  refine ⟨?_, ?_, ?_, ?_⟩
  · intro env e he
    simp [ProcessIcons, he]
  · intro env p e hf ho
    simp [ProcessIcons, hf, ho]
  · intro env p img hf ho hall
    simp only [ProcessIcons, hf, ho, CopyIcons]
    exact copyIconsLoop_ok_of_all env (squareImage img) _ hall
  · intro env p img hf ho hex
    simp only [ProcessIcons, hf, ho, CopyIcons]
    exact copyIconsLoop_error_of_failure env (squareImage img) _ hex

/-- Environment with a readable directory and a decodable icon whose saves
all succeed. -/
def c6OkEnv : IconEnv :=
  { inputDir := "in".data
    appDir := "o".data
    dirEntries := .ok [("icon.png".data, false)]
    openImage := fun _ => .ok testIconImage
    saveIcon := fun _ _ => .ok () }

/-- Environment whose icon fails to open/decode. -/
def c6OpenFailEnv : IconEnv :=
  { c6OkEnv with openImage := fun _ => .error "bad".data }

/-- Environment whose saves fail. -/
def c6SaveFailEnv : IconEnv :=
  { c6OkEnv with saveIcon := fun _ _ => .error "disk full".data }

/-- Witness for the amended C6 at concrete environments: directory-listing
failure → success, open failure → wrapped error, all saves succeeding →
success, a failing save → error. -/
theorem c6_icon_error_propagation_witness :
    ProcessIcons c6FailingEnv = .ok () ∧
    ProcessIcons c6OpenFailEnv =
      .error ("failed to open icon: ".data ++ "bad".data) ∧
    ProcessIcons c6OkEnv = .ok () ∧
    ∃ e', ProcessIcons c6SaveFailEnv = .error e' :=
  ⟨c6_icon_error_propagation.1 c6FailingEnv
      ("failed to read input directory: ".data ++ "io error".data) rfl,
   c6_icon_error_propagation.2.1 c6OpenFailEnv
      (pathJoin "in".data "icon.png".data) "bad".data rfl rfl,
   c6_icon_error_propagation.2.2.1 c6OkEnv
      (pathJoin "in".data "icon.png".data) testIconImage rfl rfl
      (fun t _ => rfl),
   c6_icon_error_propagation.2.2.2 c6SaveFailEnv
      (pathJoin "in".data "icon.png".data) testIconImage rfl rfl
      ⟨(64, 64, pathJoin "o".data "ICON.PNG".data), by decide,
        "disk full".data, rfl⟩⟩

/-! ## Claim C5: user-supplied files win over generated defaults -/

theorem foldl_custom_files (ord : List (Str × Str)) (appDir : Str) :
    ∀ (files fs : List (Str × Str)),
      files.foldl
        (fun fs pc => fs ++ [(pathJoin appDir pc.1, ReplaceVariablesOrd ord pc.2)])
        fs
      = fs ++ files.map
          (fun pc => (pathJoin appDir pc.1, ReplaceVariablesOrd ord pc.2)) := by
  intro files
  induction files with
  | nil => intro fs; simp
  | cons a t ih =>
    intro fs
    simp only [List.foldl_cons, List.map_cons, ih]
    simp

theorem foldl_guard_append_lc (x : XFnpackModel) (appDir : Str) :
    ∀ (l fs : List (Str × Str)),
      l.foldl
        (fun fs nc =>
          if hasFile x.files ("cmd/".data ++ nc.1) then fs
          else fs ++ [(pathJoin appDir ("cmd/".data ++ nc.1), nc.2)])
        fs
      = fs ++ (l.filter (fun nc => !hasFile x.files ("cmd/".data ++ nc.1))).map
          (fun nc => (pathJoin appDir ("cmd/".data ++ nc.1), nc.2)) := by
  intro l
  induction l with
  | nil => intro fs; simp
  | cons a t ih =>
    intro fs
    simp only [List.foldl_cons, List.filter_cons]
    by_cases h : hasFile x.files ("cmd/".data ++ a.1) = true
    · rw [if_pos h, ih, h]
      simp
    · rw [if_neg h, ih, Bool.not_eq_true] at *
      rw [show hasFile x.files ("cmd/".data ++ a.1) = false from
        Bool.not_eq_true _ ▸ (by simpa using h)]
      simp

theorem if_skip_append (c : Prop) [Decidable c] (fs : List (Str × Str))
    (w : Str × Str) :
    (if c then fs else fs ++ [w]) = fs ++ (if c then [] else [w]) := by
  by_cases h : c <;> simp [h]

theorem writesAt_append (fs₁ fs₂ : List (Str × Str)) (p : Str) :
    writesAt (fs₁ ++ fs₂) p = writesAt fs₁ p ++ writesAt fs₂ p := by
  simp [writesAt, List.filter_append]

theorem writesAt_single_path (q : Str) (w : Str) (appDir p : Str) :
    writesAt [(pathJoin appDir q, w)] (pathJoin appDir p)
      = if q = p then [w] else [] := by
  by_cases h : q = p
  · subst h
    simp [writesAt]
  · rw [if_neg h]
    have hne : pathJoin appDir q ≠ pathJoin appDir p :=
      fun hc => h (pathJoin_inj _ _ _ hc)
    simp [writesAt, hne]

theorem writesAt_skip_chunk (c : Prop) [Decidable c] (q w : Str)
    (appDir p : Str) :
    writesAt (if c then ([] : List (Str × Str))
              else [(pathJoin appDir q, w)]) (pathJoin appDir p)
      = if c then [] else if q = p then [w] else [] := by
  by_cases h : c
  · simp [h, writesAt]
  · rw [if_neg h, if_neg h]
    exact writesAt_single_path q w appDir p

theorem writesAt_cons (e : Str × Str) (fs : List (Str × Str)) (p : Str) :
    writesAt (e :: fs) p = (if e.1 = p then [e.2] else []) ++ writesAt fs p := by
  by_cases h : e.1 = p <;> simp [writesAt, h]

theorem writesAt_custom_files (files : List (Str × Str))
    (ord : List (Str × Str)) (appDir p : Str) :
    writesAt (files.map
        (fun pc => (pathJoin appDir pc.1, ReplaceVariablesOrd ord pc.2)))
      (pathJoin appDir p)
      = (files.filter (fun pc => decide (pc.1 = p))).map
          (fun pc => ReplaceVariablesOrd ord pc.2) := by
  induction files with
  | nil => rfl
  | cons a t ih =>
    rw [List.map_cons, writesAt_cons, List.filter_cons]
    by_cases h : a.1 = p
    · rw [if_pos (show pathJoin appDir a.1 = pathJoin appDir p by rw [h]),
        decide_eq_true h]
      simp [ih]
    · rw [if_neg (show pathJoin appDir a.1 ≠ pathJoin appDir p from
          fun hc => h (pathJoin_inj _ _ _ hc)),
        decide_eq_false h]
      simp [ih]

theorem writesAt_lifecycle_files (l : List (Str × Str)) (appDir p : Str) :
    writesAt (l.map
        (fun nc => (pathJoin appDir ("cmd/".data ++ nc.1), nc.2)))
      (pathJoin appDir p)
      = (l.filter (fun nc => decide ("cmd/".data ++ nc.1 = p))).map Prod.snd := by
  induction l with
  | nil => rfl
  | cons a t ih =>
    rw [List.map_cons, writesAt_cons, List.filter_cons]
    by_cases h : "cmd/".data ++ a.1 = p
    · rw [if_pos (show pathJoin appDir ("cmd/".data ++ a.1) = pathJoin appDir p
          by rw [h]), decide_eq_true h]
      simp only [if_true, List.map_cons, List.singleton_append,
        List.cons.injEq, true_and]
      exact ih
    · rw [if_neg (show pathJoin appDir ("cmd/".data ++ a.1) ≠ pathJoin appDir p
          from fun hc => h (pathJoin_inj _ _ _ hc)),
        decide_eq_false h]
      simp only [List.nil_append]
      exact ih

/-- Distribution of `writesAt` over the full write trace of
`Builder.writeAllFiles`, at any path under the app directory. -/
theorem writesAt_writeAllFiles (ord : List (Str × Str)) (appDir : Str)
    (x : XFnpackModel) (lifecycle : List (Str × Str)) (vars : Variables)
    (cleaned : Str) (p : Str) :
    writesAt (writeAllFiles ord appDir x lifecycle vars cleaned)
      (pathJoin appDir p) =
      (if "manifest".data = p
        then [GenerateManifestOrd ord x.manifest vars] else [])
      ++ (x.files.filter (fun pc => decide (pc.1 = p))).map
          (fun pc => ReplaceVariablesOrd ord pc.2)
      ++ (if hasFile x.files "config/privilege".data then []
          else if "config/privilege".data = p then [GeneratePrivilege vars]
          else [])
      ++ (if hasFile x.files "config/resource".data then []
          else if "config/resource".data = p then [GenerateResource vars]
          else [])
      ++ (if hasFile x.files "cmd/main".data then []
          else if "cmd/main".data = p then [GenerateMainScript vars] else [])
      ++ ((lifecycle.filter
            (fun nc => !hasFile x.files ("cmd/".data ++ nc.1))).filter
            (fun nc => decide ("cmd/".data ++ nc.1 = p))).map Prod.snd
      ++ (if hasFile x.files "app/ui/config".data then []
          else if "app/ui/config".data = p then [uiConfigContent vars] else [])
      ++ (if "app/docker/docker-compose.yaml".data = p then [cleaned] else [])
      ++ (if "LICENSE".data = p then [([] : Str)] else []) := by
  simp only [writeAllFiles]
  rw [foldl_custom_files, foldl_guard_append_lc,
    if_skip_append, if_skip_append, if_skip_append, if_skip_append]
  simp only [writesAt_append, List.append_assoc, List.nil_append]
  rw [writesAt_single_path, writesAt_custom_files, writesAt_lifecycle_files,
    writesAt_single_path, writesAt_single_path,
    writesAt_skip_chunk, writesAt_skip_chunk, writesAt_skip_chunk,
    writesAt_skip_chunk]

theorem hasFile_true_of_lookup (files : List (Str × Str)) (q c : Str)
    (h : files.lookup q = some c) : hasFile files q = true := by
  simp only [hasFile, decide_eq_true_eq]
  exact List.mem_map.mpr ⟨(q, c), mem_of_lookup_eq_some files q c h, rfl⟩

theorem hasFile_false_of_lookup_none (files : List (Str × Str)) (q : Str)
    (h : files.lookup q = none) : hasFile files q = false := by
  simp only [hasFile, decide_eq_false_iff_not]
  exact (lookup_eq_none_iff_not_mem files q).mp h

theorem filter_key_none (files : List (Str × Str)) (q : Str)
    (h : files.lookup q = none) :
    files.filter (fun pc => decide (pc.1 = q)) = [] := by
  have hq := (lookup_eq_none_iff_not_mem files q).mp h
  rw [List.filter_eq_nil_iff]
  intro pc hpc
  simp only [decide_eq_true_eq]
  intro hc
  exact hq (List.mem_map.mpr ⟨pc, hpc, hc⟩)

theorem filter_key_some (files : List (Str × Str)) (q c : Str)
    (hnd : (files.map Prod.fst).Nodup) (h : files.lookup q = some c) :
    files.filter (fun pc => decide (pc.1 = q)) = [(q, c)] := by
  induction files with
  | nil => simp [List.lookup] at h
  | cons a t ih =>
    obtain ⟨k, v⟩ := a
    have hnd' : (k :: t.map Prod.fst).Nodup := by simpa using hnd
    rw [lookup_cons_eq] at h
    rw [List.filter_cons]
    by_cases hk : q = k
    · rw [if_pos hk] at h
      simp only [Option.some.injEq] at h
      have hq : k ∉ t.map Prod.fst := (List.nodup_cons.mp hnd').1
      have hnil : t.filter (fun pc => decide (pc.1 = q)) = [] := by
        rw [List.filter_eq_nil_iff]
        intro pc hpc
        simp only [decide_eq_true_eq]
        intro hcq
        exact hq (List.mem_map.mpr ⟨pc, hpc, hcq.trans hk⟩)
      rw [if_pos (decide_eq_true (show (k, v).1 = q from hk.symm)), hnil,
        hk, h]
    · rw [if_neg hk] at h
      rw [if_neg (show ¬(decide ((k, v).1 = q) = true) from by
        simp only [decide_eq_true_eq]
        exact fun hc => hk hc.symm)]
      exact ih (List.nodup_cons.mp hnd').2 h

theorem cmd_append_ne (name q : Str) (i : Nat) (hi : i < 4)
    (hne : "cmd/".data[i]? ≠ q[i]?) : "cmd/".data ++ name ≠ q := by
  intro hc
  have h2 := congrArg (fun l : Str => l[i]?) hc
  simp only at h2
  rw [List.getElem?_append_left (by
    simp only [List.length_cons, List.length_nil]
    omega)] at h2
  exact hne h2

theorem filter_cmd_nil (ll : List (Str × Str)) (q : Str)
    (hq : ∀ name : Str, "cmd/".data ++ name ≠ q) :
    (ll.filter (fun nc => decide ("cmd/".data ++ nc.1 = q))) = [] := by
  rw [List.filter_eq_nil_iff]
  intro nc _
  simp only [decide_eq_true_eq]
  exact hq nc.1

theorem lifecycle_filter_eval (l : List (Str × Str)) (name script : Str)
    (F : Str × Str → Bool) (hnd : (l.map Prod.fst).Nodup)
    (hmem : (name, script) ∈ l) :
    ((l.filter (fun nc => !F nc)).filter
        (fun nc => decide (nc.1 = name))).map Prod.snd =
      if F (name, script) then [] else [script] := by
  induction l with
  | nil => simp at hmem
  | cons a t ih =>
    obtain ⟨k, v⟩ := a
    have hnd' : (k :: t.map Prod.fst).Nodup := by simpa using hnd
    have hsub : ∀ (ll : List (Str × Str)), name ∉ ll.map Prod.fst →
        ((ll.filter (fun nc => !F nc)).filter
          (fun nc => decide (nc.1 = name))) = [] := by
      intro ll hnin
      rw [List.filter_eq_nil_iff]
      intro nc hnc
      simp only [decide_eq_true_eq]
      intro hc
      exact hnin (List.mem_map.mpr ⟨nc, List.mem_of_mem_filter hnc, hc⟩)
    rcases List.mem_cons.mp hmem with heq | hmt
    · simp only [Prod.mk.injEq] at heq
      obtain ⟨hk, hv⟩ := heq
      subst hk
      subst hv
      have hq : name ∉ t.map Prod.fst := (List.nodup_cons.mp hnd').1
      rw [List.filter_cons]
      by_cases hP : F (name, script) = true
      · rw [if_neg (show ¬((!F (name, script)) = true) from by simp [hP])]
        rw [hsub t hq, if_pos hP]
        rfl
      · rw [if_pos (show (!F (name, script)) = true from by
          rw [Bool.eq_false_iff.mpr hP]
          rfl)]
        rw [List.filter_cons,
          if_pos (decide_eq_true (show (name, script).1 = name from rfl))]
        rw [hsub t hq, if_neg hP]
        rfl
    · have hk : k ≠ name := by
        intro hc
        exact (List.nodup_cons.mp hnd').1
          (hc ▸ List.mem_map.mpr ⟨(name, script), hmt, rfl⟩)
      have ihr := ih (List.nodup_cons.mp hnd').2 hmt
      rw [List.filter_cons]
      by_cases hP : (!F (k, v)) = true
      · rw [if_pos hP]
        rw [List.filter_cons,
          if_neg (show ¬(decide ((k, v).1 = name) = true) from by
            simp only [decide_eq_true_eq]
            exact hk)]
        exact ihr
      · rw [if_neg hP]
        exact ihr

/-- C5: each default artifact (privilege config, resource config, UI entry
config, main script, lifecycle scripts) is written only when the extension
block's path-keyed `Files` map has no entry at the artifact's fixed output
path; the writes that land at such a path are exactly one: the
variable-substituted user content when a user entry exists, else the
generated default.  `lifecycle` is the map produced by
`GenerateLifecycleScripts` (its source file is absent from `src/`; the
theorem holds for any such map whose hook names are distinct and do not
collide with `main`). -/
theorem c5_user_files_win (ord : List (Str × Str)) (appDir : Str)
    (x : XFnpackModel) (lifecycle : List (Str × Str)) (vars : Variables)
    (cleaned : Str) (hnd : (x.files.map Prod.fst).Nodup)
    (hmain : "main".data ∉ lifecycle.map Prod.fst) :
    ((∀ c, x.files.lookup "config/privilege".data = some c →
        writesAt (writeAllFiles ord appDir x lifecycle vars cleaned)
          (pathJoin appDir "config/privilege".data)
          = [ReplaceVariablesOrd ord c]) ∧
     (x.files.lookup "config/privilege".data = none →
        writesAt (writeAllFiles ord appDir x lifecycle vars cleaned)
          (pathJoin appDir "config/privilege".data)
          = [GeneratePrivilege vars])) ∧
    ((∀ c, x.files.lookup "config/resource".data = some c →
        writesAt (writeAllFiles ord appDir x lifecycle vars cleaned)
          (pathJoin appDir "config/resource".data)
          = [ReplaceVariablesOrd ord c]) ∧
     (x.files.lookup "config/resource".data = none →
        writesAt (writeAllFiles ord appDir x lifecycle vars cleaned)
          (pathJoin appDir "config/resource".data)
          = [GenerateResource vars])) ∧
    ((∀ c, x.files.lookup "cmd/main".data = some c →
        writesAt (writeAllFiles ord appDir x lifecycle vars cleaned)
          (pathJoin appDir "cmd/main".data)
          = [ReplaceVariablesOrd ord c]) ∧
     (x.files.lookup "cmd/main".data = none →
        writesAt (writeAllFiles ord appDir x lifecycle vars cleaned)
          (pathJoin appDir "cmd/main".data)
          = [GenerateMainScript vars])) ∧
    ((∀ c, x.files.lookup "app/ui/config".data = some c →
        writesAt (writeAllFiles ord appDir x lifecycle vars cleaned)
          (pathJoin appDir "app/ui/config".data)
          = [ReplaceVariablesOrd ord c]) ∧
     (x.files.lookup "app/ui/config".data = none →
        writesAt (writeAllFiles ord appDir x lifecycle vars cleaned)
          (pathJoin appDir "app/ui/config".data)
          = [uiConfigContent vars])) ∧
    (∀ name script, (name, script) ∈ lifecycle →
      (lifecycle.map Prod.fst).Nodup →
      ((∀ c, x.files.lookup ("cmd/".data ++ name) = some c →
          writesAt (writeAllFiles ord appDir x lifecycle vars cleaned)
            (pathJoin appDir ("cmd/".data ++ name))
            = [ReplaceVariablesOrd ord c]) ∧
       (x.files.lookup ("cmd/".data ++ name) = none →
          writesAt (writeAllFiles ord appDir x lifecycle vars cleaned)
            (pathJoin appDir ("cmd/".data ++ name))
            = [script]))) := by
  have lcnil_priv := filter_cmd_nil
    (lifecycle.filter (fun nc => !hasFile x.files ("cmd/".data ++ nc.1)))
    "config/privilege".data
    (fun n => cmd_append_ne n "config/privilege".data 1 (by decide) (by decide))
  have lcnil_res := filter_cmd_nil
    (lifecycle.filter (fun nc => !hasFile x.files ("cmd/".data ++ nc.1)))
    "config/resource".data
    (fun n => cmd_append_ne n "config/resource".data 1 (by decide) (by decide))
  have lcnil_ui := filter_cmd_nil
    (lifecycle.filter (fun nc => !hasFile x.files ("cmd/".data ++ nc.1)))
    "app/ui/config".data
    (fun n => cmd_append_ne n "app/ui/config".data 0 (by decide) (by decide))
  have lcnil_main : ((lifecycle.filter
      (fun nc => !hasFile x.files ("cmd/".data ++ nc.1))).filter
      (fun nc => decide ("cmd/".data ++ nc.1 = "cmd/main".data))) = [] := by
    rw [List.filter_eq_nil_iff]
    intro nc hnc
    simp only [decide_eq_true_eq]
    intro hc
    have h2 : "cmd/".data ++ nc.1 = "cmd/".data ++ "main".data := hc
    exact hmain ((List.append_cancel_left h2) ▸
      List.mem_map.mpr ⟨nc, List.mem_of_mem_filter hnc, rfl⟩)
  refine ⟨⟨fun c hc => ?_, fun hc => ?_⟩, ⟨fun c hc => ?_, fun hc => ?_⟩,
    ⟨fun c hc => ?_, fun hc => ?_⟩, ⟨fun c hc => ?_, fun hc => ?_⟩,
    fun name script hmem hndlc => ?_⟩
  · rw [writesAt_writeAllFiles, filter_key_some x.files _ c hnd hc,
      hasFile_true_of_lookup x.files _ c hc, lcnil_priv]
    simp +decide
  · rw [writesAt_writeAllFiles, filter_key_none x.files _ hc,
      hasFile_false_of_lookup_none x.files _ hc, lcnil_priv]
    simp +decide
  · rw [writesAt_writeAllFiles, filter_key_some x.files _ c hnd hc,
      hasFile_true_of_lookup x.files _ c hc, lcnil_res]
    simp +decide
  · rw [writesAt_writeAllFiles, filter_key_none x.files _ hc,
      hasFile_false_of_lookup_none x.files _ hc, lcnil_res]
    simp +decide
  · rw [writesAt_writeAllFiles, filter_key_some x.files _ c hnd hc,
      hasFile_true_of_lookup x.files _ c hc, lcnil_main]
    simp +decide
  · rw [writesAt_writeAllFiles, filter_key_none x.files _ hc,
      hasFile_false_of_lookup_none x.files _ hc, lcnil_main]
    simp +decide
  · rw [writesAt_writeAllFiles, filter_key_some x.files _ c hnd hc,
      hasFile_true_of_lookup x.files _ c hc, lcnil_ui]
    simp +decide
  · rw [writesAt_writeAllFiles, filter_key_none x.files _ hc,
      hasFile_false_of_lookup_none x.files _ hc, lcnil_ui]
    simp +decide
  · have hname : name ≠ "main".data := fun hcn =>
      hmain (hcn ▸ List.mem_map.mpr ⟨(name, script), hmem, rfl⟩)
    have hpred : (fun nc : Str × Str =>
        decide ("cmd/".data ++ nc.1 = "cmd/".data ++ name)) =
        (fun nc : Str × Str => decide (nc.1 = name)) := by
      funext nc
      simp only [List.append_cancel_left_eq]
    have hlce : ((lifecycle.filter
        (fun nc => !hasFile x.files ("cmd/".data ++ nc.1))).filter
        (fun nc => decide (nc.1 = name))).map Prod.snd =
        if hasFile x.files ("cmd/".data ++ name) then [] else [script] :=
      lifecycle_filter_eval lifecycle name script
        (fun nc => hasFile x.files ("cmd/".data ++ nc.1)) hndlc hmem
    have hne_manifest : ¬("manifest".data = "cmd/".data ++ name) :=
      fun hcn => cmd_append_ne name "manifest".data 0 (by decide) (by decide)
        hcn.symm
    have hne_priv : ¬("config/privilege".data = "cmd/".data ++ name) :=
      fun hcn => cmd_append_ne name "config/privilege".data 1 (by decide)
        (by decide) hcn.symm
    have hne_res : ¬("config/resource".data = "cmd/".data ++ name) :=
      fun hcn => cmd_append_ne name "config/resource".data 1 (by decide)
        (by decide) hcn.symm
    have hne_ui : ¬("app/ui/config".data = "cmd/".data ++ name) :=
      fun hcn => cmd_append_ne name "app/ui/config".data 0 (by decide)
        (by decide) hcn.symm
    have hne_compose :
        ¬("app/docker/docker-compose.yaml".data = "cmd/".data ++ name) :=
      fun hcn => cmd_append_ne name "app/docker/docker-compose.yaml".data 0
        (by decide) (by decide) hcn.symm
    have hne_license : ¬("LICENSE".data = "cmd/".data ++ name) :=
      fun hcn => cmd_append_ne name "LICENSE".data 0 (by decide) (by decide)
        hcn.symm
    have hmainne : ¬("cmd/main".data = "cmd/".data ++ name) := by
      intro hcn
      rw [show "cmd/main".data = "cmd/".data ++ "main".data from by decide]
        at hcn
      exact hname (List.append_cancel_left hcn).symm
    constructor
    · intro c hc
      rw [writesAt_writeAllFiles, filter_key_some x.files _ c hnd hc, hpred,
        hlce, hasFile_true_of_lookup x.files _ c hc]
      simp [hne_manifest, hne_priv, hne_res, hmainne, hne_ui, hne_compose,
        hne_license]
      exact fun _ hm => hname hm.symm
    · intro hc
      rw [writesAt_writeAllFiles, filter_key_none x.files _ hc, hpred, hlce,
        hasFile_false_of_lookup_none x.files _ hc]
      simp [hne_manifest, hne_priv, hne_res, hmainne, hne_ui, hne_compose,
        hne_license]
      exact fun _ hm => hname hm.symm

/-- Concrete extension block for the C5 witness: the user supplies a file at
`config/privilege`. -/
def c5WitnessX : XFnpackModel :=
  { manifest := [], files := [("config/privilege".data, "USER".data)] }

/-- Concrete lifecycle-script map for the C5 witness. -/
def c5WitnessLC : List (Str × Str) := [("start".data, "S".data)]

/-- Witness for C5 at concrete inputs: the user-supplied privilege file is
the only content written at `config/privilege`; the resource config and the
`start` lifecycle script fall back to the generated defaults. -/
theorem c5_user_files_win_witness :
    writesAt (writeAllFiles [] "o".data c5WitnessX c5WitnessLC {} [])
      (pathJoin "o".data "config/privilege".data)
      = [ReplaceVariablesOrd [] "USER".data] ∧
    writesAt (writeAllFiles [] "o".data c5WitnessX c5WitnessLC {} [])
      (pathJoin "o".data "config/resource".data)
      = [GenerateResource {}] ∧
    writesAt (writeAllFiles [] "o".data c5WitnessX c5WitnessLC {} [])
      (pathJoin "o".data ("cmd/".data ++ "start".data))
      = ["S".data] := by
  have h := c5_user_files_win [] "o".data c5WitnessX c5WitnessLC {} []
    (by decide) (by decide)
  exact ⟨h.1.1 "USER".data rfl, h.2.1.2 rfl,
    (h.2.2.2.2 "start".data "S".data (by decide) (by decide)).2 rfl⟩

/-! ## Claim C10: appname for the directory vs appname in the manifest -/

theorem lookup_map_replace (s : List (Str × Str)) (k v : Str)
    (h : k ∈ s.map Prod.fst) :
    List.lookup k (s.map (fun p => if p.1 = k then (k, v) else p))
      = some v := by
  induction s with
  | nil => simp at h
  | cons a t ih =>
    obtain ⟨x, y⟩ := a
    by_cases hx : x = k
    · simp only [List.map_cons, if_pos (show (x, y).1 = k from hx)]
      rw [lookup_cons_eq, if_pos rfl]
    · simp only [List.map_cons, if_neg (show (x, y).1 = k → False from hx)]
      rw [lookup_cons_eq, if_neg (fun hc => hx hc.symm)]
      simp only [List.map_cons] at h
      rcases List.mem_cons.mp h with hk | hk
      · exact absurd hk.symm hx
      · exact ih hk

theorem lookup_append_single (s : List (Str × Str)) (k v : Str)
    (h : k ∉ s.map Prod.fst) :
    List.lookup k (s ++ [(k, v)]) = some v := by
  induction s with
  | nil => rw [List.nil_append, lookup_cons_eq, if_pos rfl]
  | cons a t ih =>
    obtain ⟨x, y⟩ := a
    rw [List.cons_append, lookup_cons_eq,
      if_neg (fun hc => h (by simp [hc]))]
    exact ih (fun hc => h (by simp [hc]))

theorem lookup_storeSet_self (s : List (Str × Str)) (k v : Str) :
    List.lookup k (storeSet s k v) = some v := by
  unfold storeSet
  by_cases h : k ∈ s.map Prod.fst
  · rw [if_pos h]
    exact lookup_map_replace s k v h
  · rw [if_neg h]
    exact lookup_append_single s k v h

theorem lookup_map_replace_ne (s : List (Str × Str)) (k v k' : Str)
    (h : k' ≠ k) :
    List.lookup k' (s.map (fun p => if p.1 = k then (k, v) else p))
      = List.lookup k' s := by
  induction s with
  | nil => rfl
  | cons a t ih =>
    obtain ⟨x, y⟩ := a
    by_cases hx : x = k
    · simp only [List.map_cons, if_pos (show (x, y).1 = k from hx)]
      rw [lookup_cons_eq, lookup_cons_eq, if_neg h,
        if_neg (show k' = x → False from fun hc => h (hc.trans hx)), ih]
    · simp only [List.map_cons, if_neg (show (x, y).1 = k → False from hx)]
      rw [lookup_cons_eq, lookup_cons_eq]
      by_cases hk' : k' = x
      · rw [if_pos hk', if_pos hk']
      · rw [if_neg hk', if_neg hk', ih]

theorem lookup_append_single_ne (s : List (Str × Str)) (k v k' : Str)
    (h : k' ≠ k) :
    List.lookup k' (s ++ [(k, v)]) = List.lookup k' s := by
  induction s with
  | nil => rw [List.nil_append, lookup_cons_eq, if_neg h]
  | cons a t ih =>
    obtain ⟨x, y⟩ := a
    rw [List.cons_append, lookup_cons_eq, lookup_cons_eq]
    by_cases hk' : k' = x
    · rw [if_pos hk', if_pos hk']
    · rw [if_neg hk', if_neg hk', ih]

theorem lookup_storeSet_ne (s : List (Str × Str)) (k v k' : Str)
    (h : k' ≠ k) :
    List.lookup k' (storeSet s k v) = List.lookup k' s := by
  unfold storeSet
  by_cases hm : k ∈ s.map Prod.fst
  · rw [if_pos hm]
    exact lookup_map_replace_ne s k v k' h
  · rw [if_neg hm]
    exact lookup_append_single_ne s k v k' h

theorem lookup_foldl_storeSet_not_mem (q : Str) (f : ManifestValue → Str) :
    ∀ (t : List (Str × ManifestValue)) (acc : List (Str × Str)),
      (∀ kv ∈ t, kv.1 ≠ q) →
      List.lookup q
        (t.foldl (fun acc kv => storeSet acc kv.1 (f kv.2)) acc)
        = List.lookup q acc := by
  intro t
  induction t with
  | nil => intro acc _; rfl
  | cons kv t ih =>
    intro acc h
    rw [List.foldl_cons]
    have h1 : kv.1 ≠ q := h kv (List.mem_cons_self kv t)
    have h2 : ∀ e ∈ t, e.1 ≠ q := fun e he => h e (List.mem_cons_of_mem kv he)
    rw [ih (storeSet acc kv.1 (f kv.2)) h2]
    exact lookup_storeSet_ne acc kv.1 (f kv.2) q h1.symm

theorem lookup_foldl_storeSet_found (q : Str) (f : ManifestValue → Str) :
    ∀ (m : List (Str × ManifestValue)) (acc : List (Str × Str))
      (val : ManifestValue),
      (m.map Prod.fst).Nodup → m.lookup q = some val →
      List.lookup q
        (m.foldl (fun acc kv => storeSet acc kv.1 (f kv.2)) acc)
        = some (f val) := by
  intro m
  induction m with
  | nil => intro acc val _ h; simp [List.lookup] at h
  | cons kv t ih =>
    intro acc val hnd hm
    obtain ⟨k, w⟩ := kv
    simp only [List.map_cons, List.nodup_cons] at hnd
    rw [lookup_cons_eq] at hm
    rw [List.foldl_cons]
    by_cases hk : q = k
    · rw [if_pos hk] at hm
      have hw : w = val := Option.some.inj hm
      have h2 : ∀ e ∈ t, e.1 ≠ q := by
        intro e he hc
        exact hnd.1 (List.mem_map.mpr ⟨e, he, hc.trans hk⟩)
      rw [lookup_foldl_storeSet_not_mem q f t _ h2, hk,
        lookup_storeSet_self, hw]
    · rw [if_neg hk] at hm
      exact ih _ val hnd.2 hm

/-- The `result` map of `GenerateManifest` just before the manifest entries
are folded in: static defaults, then variable-derived, image-based and
port-based defaults (steps r0–r4 of `resolveManifest`). -/
def manifestBase (vars : Variables) : List (Str × Str) :=
  let r0 : List (Str × Str) :=
    ManifestDefaults.foldl (fun acc kv => storeSet acc kv.1 kv.2) []
  let r1 :=
    if vars.serviceName ≠ [] then
      storeSet (storeSet (storeSet r0 "appname".data vars.serviceName)
          "display_name".data vars.serviceName)
        "desktop_applaunchname".data (vars.serviceName ++ ".Application".data)
    else r0
  let r2 :=
    if vars.imageOrg ≠ [] then
      storeSet (storeSet r1 "maintainer".data vars.imageOrg)
        "distributor".data vars.imageOrg
    else r1
  let r3 :=
    if vars.imageName ≠ [] then storeSet r2 "desc".data vars.imageName
    else if vars.serviceName ≠ [] then storeSet r2 "desc".data vars.serviceName
    else r2
  if vars.firstPort ≠ [] then storeSet r3 "service_port".data vars.firstPort
  else r3

/-- The `result` map after the explicit manifest entries are stored over
`manifestBase` (step r5 of `resolveManifest`). -/
def manifestWithEntries (ord : List (Str × Str))
    (m : List (Str × ManifestValue)) (vars : Variables) : List (Str × Str) :=
  m.foldl
    (fun acc kv =>
      storeSet acc kv.1 (ReplaceVariablesOrd ord (formatManifestValue kv.2)))
    (manifestBase vars)

theorem resolveManifest_decomp (ord : List (Str × Str))
    (m : List (Str × ManifestValue)) (vars : Variables) :
    resolveManifest ord m vars =
      if "desktop_applaunchname".data ∉ m.map Prod.fst ∧
          "desktop_appname".data ∉ m.map Prod.fst then
        match List.lookup "appname".data (manifestWithEntries ord m vars) with
        | some a =>
          if a ≠ [] then
            storeSet (manifestWithEntries ord m vars)
              "desktop_applaunchname".data (a ++ ".Application".data)
          else manifestWithEntries ord m vars
        | none => manifestWithEntries ord m vars
      else manifestWithEntries ord m vars := rfl

theorem resolve_lookup_appname (ord : List (Str × Str))
    (m : List (Str × ManifestValue)) (vars : Variables) (v : ManifestValue)
    (hnd : (m.map Prod.fst).Nodup)
    (hm : m.lookup "appname".data = some v) :
    List.lookup "appname".data (resolveManifest ord m vars)
      = some (ReplaceVariablesOrd ord (formatManifestValue v)) := by
  have hbase : List.lookup "appname".data (manifestWithEntries ord m vars)
      = some (ReplaceVariablesOrd ord (formatManifestValue v)) :=
    lookup_foldl_storeSet_found "appname".data
      (fun mv => ReplaceVariablesOrd ord (formatManifestValue mv)) m
      (manifestBase vars) v hnd hm
  rw [resolveManifest_decomp]
  by_cases hC : ("desktop_applaunchname".data ∉ m.map Prod.fst ∧
      "desktop_appname".data ∉ m.map Prod.fst)
  · rw [if_pos hC]
    cases hma : List.lookup "appname".data (manifestWithEntries ord m vars) with
    | none => rw [hma] at hbase; exact Option.noConfusion hbase
    | some a =>
      by_cases hne : a ≠ []
      · show List.lookup "appname".data
            (if a ≠ [] then
              storeSet (manifestWithEntries ord m vars)
                "desktop_applaunchname".data (a ++ ".Application".data)
            else manifestWithEntries ord m vars)
          = some (ReplaceVariablesOrd ord (formatManifestValue v))
        rw [if_pos hne,
          lookup_storeSet_ne _ _ _ _ (by decide :
            "appname".data ≠ "desktop_applaunchname".data)]
        exact hbase
      · show List.lookup "appname".data
            (if a ≠ [] then
              storeSet (manifestWithEntries ord m vars)
                "desktop_applaunchname".data (a ++ ".Application".data)
            else manifestWithEntries ord m vars)
          = some (ReplaceVariablesOrd ord (formatManifestValue v))
        rw [if_neg hne]
        exact hbase
  · rw [if_neg hC]
    exact hbase

/-- The per-key body of the canonical-order output loop of
`GenerateManifest`. -/
def manifestStep (result : List (Str × Str))
    (acc : List Str × List Str) (key : Str) : List Str × List Str :=
  match List.lookup key result with
  | some v =>
    if v ≠ [] then (acc.1 ++ [formatManifestLine key v], acc.2 ++ [key])
    else acc
  | none => acc

/-- The `lines`/`addedKeys` pair after the canonical-order loop of
`GenerateManifest`. -/
def manifestFirstPass (result : List (Str × Str)) : List Str × List Str :=
  ManifestFieldOrder.foldl (manifestStep result) ([], [])

theorem generateManifestOrd_decomp (ord : List (Str × Str))
    (m : List (Str × ManifestValue)) (vars : Variables) :
    GenerateManifestOrd ord m vars =
      joinLines ((manifestFirstPass (resolveManifest ord m vars)).1 ++
        (sortStrings (((resolveManifest ord m vars).map Prod.fst).filter
          (fun k => k ∉ (manifestFirstPass (resolveManifest ord m vars)).2 ∧
            (List.lookup k (resolveManifest ord m vars)).getD [] ≠ []))).map
          (fun k => formatManifestLine k
            ((List.lookup k (resolveManifest ord m vars)).getD []))) := rfl

theorem manifestStep_some_ne (result : List (Str × Str))
    (acc : List Str × List Str) (key v : Str)
    (hlk : List.lookup key result = some v) (hv : v ≠ []) :
    manifestStep result acc key
      = (acc.1 ++ [formatManifestLine key v], acc.2 ++ [key]) := by
  unfold manifestStep
  rw [hlk]
  exact if_pos hv

theorem manifestFold_fst_extends (result : List (Str × Str)) :
    ∀ (keys : List Str) (acc : List Str × List Str),
      ∃ extra, (keys.foldl (manifestStep result) acc).1 = acc.1 ++ extra := by
  intro keys
  induction keys with
  | nil => intro acc; exact ⟨[], (List.append_nil _).symm⟩
  | cons k t ih =>
    intro acc
    rw [List.foldl_cons]
    obtain ⟨e2, he2⟩ := ih (manifestStep result acc k)
    have h1 : ∃ e1, (manifestStep result acc k).1 = acc.1 ++ e1 := by
      unfold manifestStep
      cases List.lookup k result with
      | none => exact ⟨[], (List.append_nil _).symm⟩
      | some v =>
        by_cases hv : v ≠ []
        · refine ⟨[formatManifestLine k v], ?_⟩
          show (if v ≠ []
              then (acc.1 ++ [formatManifestLine k v], acc.2 ++ [k])
              else acc).1
            = acc.1 ++ [formatManifestLine k v]
          rw [if_pos hv]
        · refine ⟨[], ?_⟩
          show (if v ≠ []
              then (acc.1 ++ [formatManifestLine k v], acc.2 ++ [k])
              else acc).1
            = acc.1 ++ []
          rw [if_neg hv, List.append_nil]
    obtain ⟨e1, he1⟩ := h1
    exact ⟨e1 ++ e2, by rw [he2, he1, List.append_assoc]⟩

theorem manifestFirstPass_appname (result : List (Str × Str)) (a : Str)
    (hlk : List.lookup "appname".data result = some a) (ha : a ≠ []) :
    ∃ extra, (manifestFirstPass result).1
      = formatManifestLine "appname".data a :: extra := by
  unfold manifestFirstPass
  have hcons : ManifestFieldOrder = "appname".data :: ManifestFieldOrder.tail :=
    rfl
  rw [hcons, List.foldl_cons,
    manifestStep_some_ne result ([], []) "appname".data a hlk ha]
  obtain ⟨extra, hex⟩ := manifestFold_fst_extends result ManifestFieldOrder.tail
    (([] : List Str) ++ [formatManifestLine "appname".data a],
     ([] : List Str) ++ ["appname".data])
  exact ⟨extra, by rw [hex]; rfl⟩

theorem joinLines_cons_exists (a : Str) (l : List Str) :
    ∃ r, joinLines (a :: l) = a ++ r := by
  cases l with
  | nil =>
    refine ⟨['\n'], ?_⟩
    show List.intercalate ['\n'] [a] ++ ['\n'] = a ++ ['\n']
    have h : List.intercalate ['\n'] [a] = a ++ [] := rfl
    rw [h, List.append_nil]
  | cons b t =>
    refine ⟨['\n'] ++ List.intercalate ['\n'] (b :: t) ++ ['\n'], ?_⟩
    show List.intercalate ['\n'] (a :: b :: t) ++ ['\n']
      = a ++ (['\n'] ++ List.intercalate ['\n'] (b :: t) ++ ['\n'])
    have h : List.intercalate ['\n'] (a :: b :: t)
        = a ++ ('\n' :: List.intercalate ['\n'] (b :: t)) := rfl
    rw [h, List.append_assoc]
    rfl

/-- **C10.** When the manifest sub-object defines `appname`, the name used
for the output root directory (`GetManifestAppname`) is the formatted value
taken verbatim; the resolved `result["appname"]` that the manifest file
emits is the same value with the placeholder tokens substituted; when the
substitution changes the value the directory name differs from the emitted
value; and when the substituted value is non-empty the generated manifest
begins with the substituted `appname` line. -/
theorem c10_appname_verbatim_vs_substituted
    (ord : List (Str × Str)) (m : List (Str × ManifestValue))
    (vars : Variables) (v : ManifestValue)
    (hm : m.lookup "appname".data = some v)
    (hnd : (m.map Prod.fst).Nodup) :
    GetManifestAppname m vars = formatManifestValue v ∧
    List.lookup "appname".data (resolveManifest ord m vars)
      = some (ReplaceVariablesOrd ord (formatManifestValue v)) ∧
    (ReplaceVariablesOrd ord (formatManifestValue v) ≠ formatManifestValue v →
      GetManifestAppname m vars ≠
        (List.lookup "appname".data (resolveManifest ord m vars)).getD []) ∧
    (ReplaceVariablesOrd ord (formatManifestValue v) ≠ [] →
      ∃ rest, GenerateManifestOrd ord m vars =
        formatManifestLine "appname".data
          (ReplaceVariablesOrd ord (formatManifestValue v)) ++ rest) := by
  have h1 : GetManifestAppname m vars = formatManifestValue v := by
    unfold GetManifestAppname
    rw [hm]
  have h2 := resolve_lookup_appname ord m vars v hnd hm
  refine ⟨h1, h2, ?_, ?_⟩
  · intro hne
    rw [h1, h2]
    simp only [Option.getD_some]
    exact fun hc => hne hc.symm
  · intro hsub
    obtain ⟨extra, hex⟩ :=
      manifestFirstPass_appname (resolveManifest ord m vars) _ h2 hsub
    rw [generateManifestOrd_decomp, hex, List.cons_append]
    exact joinLines_cons_exists _ _

/-- Concrete manifest input for the C10 witness: an `appname` entry whose
value contains the `${SERVICE_NAME}` placeholder. -/
def c10m : List (Str × ManifestValue) :=
  [("appname".data, ManifestValue.str "${SERVICE_NAME}-x".data)]

/-- Concrete variables for the C10 witness. -/
def c10vars : Variables :=
  { serviceName := "app".data, containerName := "c".data,
    firstPort := "1".data }

theorem c10_appname_verbatim_vs_substituted_witness :
    GetManifestAppname c10m c10vars = "${SERVICE_NAME}-x".data ∧
    GetManifestAppname c10m c10vars ≠
      (List.lookup "appname".data
        (resolveManifest (replacements c10vars) c10m c10vars)).getD [] ∧
    (∃ rest, GenerateManifestOrd (replacements c10vars) c10m c10vars =
      formatManifestLine "appname".data "app-x".data ++ rest) := by
  have h := c10_appname_verbatim_vs_substituted (replacements c10vars) c10m
    c10vars (ManifestValue.str "${SERVICE_NAME}-x".data) (by decide) (by decide)
  refine ⟨h.1, h.2.2.1 (by decide), ?_⟩
  have he : ReplaceVariablesOrd (replacements c10vars)
      (formatManifestValue (ManifestValue.str "${SERVICE_NAME}-x".data))
      = "app-x".data := by decide
  rw [← he]
  exact h.2.2.2 (by decide)

/-! ## Claim C4: manifest line format, field order and trailing newline -/

theorem manifestStep_skip (result : List (Str × Str))
    (acc : List Str × List Str) (key : Str)
    (h : (List.lookup key result).getD [] = []) :
    manifestStep result acc key = acc := by
  unfold manifestStep
  cases hlk : List.lookup key result with
  | none => rfl
  | some v =>
    rw [hlk] at h
    simp only [Option.getD_some] at h
    exact if_neg (fun hc => hc h)

theorem manifestFold_spec (result : List (Str × Str)) :
    ∀ (keys : List Str) (acc : List Str × List Str),
      keys.foldl (manifestStep result) acc
        = (acc.1 ++
            (keys.filter
              (fun k => (List.lookup k result).getD [] ≠ [])).map
              (fun k => formatManifestLine k ((List.lookup k result).getD [])),
           acc.2 ++
            keys.filter (fun k => (List.lookup k result).getD [] ≠ [])) := by
  intro keys
  induction keys with
  | nil => intro acc; simp
  | cons k t ih =>
    intro acc
    rw [List.foldl_cons]
    by_cases hk : (List.lookup k result).getD [] ≠ []
    · cases hlk : List.lookup k result with
      | none => rw [hlk] at hk; simp at hk
      | some v =>
        have hv : v ≠ [] := by rw [hlk] at hk; simpa using hk
        rw [manifestStep_some_ne result acc k v hlk hv, ih]
        simp only [List.filter_cons, decide_eq_true hk, if_true,
          List.map_cons, hlk, Option.getD_some, decide_eq_true hv,
          List.nil_append, List.append_assoc,
          List.singleton_append, List.cons_append]
    · rw [manifestStep_skip result acc k (not_not.mp hk), ih]
      simp only [List.filter_cons, decide_eq_false hk]
      rw [if_neg (by simp)]

theorem manifestFirstPass_spec (result : List (Str × Str)) :
    manifestFirstPass result
      = ((ManifestFieldOrder.filter
            (fun k => (List.lookup k result).getD [] ≠ [])).map
           (fun k => formatManifestLine k ((List.lookup k result).getD [])),
         ManifestFieldOrder.filter
           (fun k => (List.lookup k result).getD [] ≠ [])) := by
  unfold manifestFirstPass
  rw [manifestFold_spec result ManifestFieldOrder ([], [])]
  rfl

theorem remaining_filter_eq (result : List (Str × Str)) :
    (result.map Prod.fst).filter
      (fun k => k ∉ (manifestFirstPass result).2 ∧
        (List.lookup k result).getD [] ≠ [])
      = (result.map Prod.fst).filter
          (fun k => k ∉ ManifestFieldOrder ∧
            (List.lookup k result).getD [] ≠ []) := by
  apply List.filter_congr
  intro k _
  rw [manifestFirstPass_spec]
  by_cases hV : (List.lookup k result).getD [] ≠ []
  · by_cases hin : k ∈ ManifestFieldOrder
    · have hmem : k ∈ ManifestFieldOrder.filter
          (fun k => (List.lookup k result).getD [] ≠ []) :=
        List.mem_filter.mpr ⟨hin, decide_eq_true hV⟩
      simp [hmem, hin]
    · have hnm : k ∉ ManifestFieldOrder.filter
          (fun k => (List.lookup k result).getD [] ≠ []) :=
        fun hc => hin (List.mem_filter.mp hc).1
      simp [hnm, hin]
  · have hV' : (List.lookup k result).getD [] = [] := not_not.mp hV
    simp [hV']

/-- The manifest line format as the spec words it: keys shorter than 16
characters are padded to a 16-character column followed by `"= "`; keys of
length at least 16 get a single space on each side of `=`. -/
def formatManifestLineSpec (key value : Str) : Str :=
  if key.length < 16 then
    (key ++ List.replicate (16 - key.length) ' ') ++ ("= ".data ++ value)
  else
    key ++ (" = ".data ++ value)

theorem formatManifestLineSpec_eq (k v : Str) :
    formatManifestLineSpec k v = formatManifestLine k v := by
  unfold formatManifestLineSpec formatManifestLine
  by_cases h : k.length < 16
  · rw [if_pos h, if_pos h, List.append_assoc (k ++ List.replicate (16 - k.length) ' ') "= ".data v]
  · rw [if_neg h, if_neg h, List.append_assoc k " = ".data v]

/-- `GenerateManifest` as the spec describes it: resolve the field map, emit
the canonical-order keys holding a non-empty value, then the remaining
non-empty keys in ascending lexicographic order, each line formatted by
`formatManifestLineSpec`, joined by newlines with exactly one trailing
newline after the last line. -/
def GenerateManifestSpec (ord : List (Str × Str))
    (m : List (Str × ManifestValue)) (vars : Variables) : Str :=
  let result := resolveManifest ord m vars
  let canonical := (ManifestFieldOrder.filter
      (fun k => (List.lookup k result).getD [] ≠ [])).map
    (fun k => formatManifestLineSpec k ((List.lookup k result).getD []))
  let remaining := (sortStrings ((result.map Prod.fst).filter
      (fun k => k ∉ ManifestFieldOrder ∧
        (List.lookup k result).getD [] ≠ []))).map
    (fun k => formatManifestLineSpec k ((List.lookup k result).getD []))
  List.intercalate ['\n'] (canonical ++ remaining) ++ ['\n']

/-- **C4.** For every manifest map, variables and replacement order, the
generated manifest equals the spec-shaped rendering: canonically-ordered
keys with non-empty resolved values first, then the remaining non-empty
keys sorted ascending, each line with the key padded to a 16-character
column (one space before `=` for keys of length at least 16), newline-joined
with exactly one trailing newline; and the remaining-key list is indeed
sorted ascending. -/
theorem c4_manifest_format_and_order (ord : List (Str × Str))
    (m : List (Str × ManifestValue)) (vars : Variables) :
    GenerateManifestOrd ord m vars = GenerateManifestSpec ord m vars ∧
    List.Sorted (· ≤ ·)
      (sortStrings (((resolveManifest ord m vars).map Prod.fst).filter
        (fun k => k ∉ ManifestFieldOrder ∧
          (List.lookup k (resolveManifest ord m vars)).getD [] ≠ []))) := by
  constructor
  · rw [generateManifestOrd_decomp, remaining_filter_eq, manifestFirstPass_spec]
    simp only [GenerateManifestSpec, formatManifestLineSpec_eq]
    rfl
  · exact List.sorted_insertionSort _ _

/-! ## Claim C3: determinism of `GenerateManifest` -/

theorem isPrefix_of_isPrefix_replaceAll (p v : Str) (hv : v ≠ []) :
    ∀ (s u : Str), (∀ c ∈ u, ∀ d ∈ v, c ≠ d) →
      u <+: replaceAll p v s → u <+: s := by
  intro s
  induction s with
  | nil =>
    intro u _ h
    rw [replaceAll_nil] at h
    exact h
  | cons a rest ih =>
    intro u hd h
    by_cases hp : p <+: (a :: rest) ∧ p ≠ []
    · rw [replaceAll_cons_pos v hp.1 hp.2] at h
      cases u with
      | nil => exact List.nil_prefix
      | cons u0 u' =>
        rcases v with _ | ⟨v0, v'⟩
        · exact absurd rfl hv
        · rw [List.cons_append] at h
          exact absurd (List.cons_prefix_cons.mp h).1
            (hd u0 (List.mem_cons_self u0 u') v0 (List.mem_cons_self v0 v'))
    · rw [replaceAll_cons_neg v hp] at h
      cases u with
      | nil => exact List.nil_prefix
      | cons u0 u' =>
        obtain ⟨h0, h'⟩ := List.cons_prefix_cons.mp h
        exact List.cons_prefix_cons.mpr ⟨h0,
          ih u' (fun c hc d hd2 => hd c (List.mem_cons_of_mem u0 hc) d hd2) h'⟩

theorem replaceAll_append_blocked (q w : Str) :
    ∀ (u t : Str), (∀ k, k < u.length → ¬ q <+: (List.drop k u ++ t)) →
      replaceAll q w (u ++ t) = u ++ replaceAll q w t := by
  intro u
  induction u with
  | nil => intro t _; rw [List.nil_append, List.nil_append]
  | cons a u' ih =>
    intro t hblock
    have h0 : ¬ q <+: (a :: (u' ++ t)) := by
      have h := hblock 0 (by simp)
      rw [List.drop_zero, List.cons_append] at h
      exact h
    have hshift : ∀ k, k < u'.length → ¬ q <+: (List.drop k u' ++ t) := by
      intro k hk
      have h := hblock (k + 1) (Nat.succ_lt_succ hk)
      rw [List.drop_succ_cons] at h
      exact h
    rw [List.cons_append, List.cons_append,
      replaceAll_cons_neg w (fun hc => h0 hc.1), ih t hshift]

theorem replaceAll_comm_aux (p v q w : Str)
    (hpne : p ≠ []) (hqne : q ≠ []) (hvne : v ≠ []) (hwne : w ≠ [])
    (hqv : ∀ c ∈ q, ∀ d ∈ v, c ≠ d) (hpw : ∀ c ∈ p, ∀ d ∈ w, c ≠ d)
    (hdiff : ∃ i, i < p.length ∧ i < q.length ∧ p[i]? ≠ q[i]?)
    (hqp : ∀ k, k < p.length → 0 < k → p[k]? ≠ q[0]?)
    (hpq : ∀ k, k < q.length → 0 < k → q[k]? ≠ p[0]?) :
    ∀ (n : Nat) (s : Str), s.length ≤ n →
      replaceAll q w (replaceAll p v s) = replaceAll p v (replaceAll q w s) := by
  intro n
  induction n with
  | zero =>
    intro s hlen
    have hnil : s = [] := List.eq_nil_of_length_eq_zero (Nat.le_zero.mp hlen)
    subst hnil
    rfl
  | succ n ih =>
    intro s hlen
    rcases s with _ | ⟨a, rest⟩
    · rfl
    · by_cases hps : p <+: (a :: rest) <;> by_cases hqs : q <+: (a :: rest)
      · -- both patterns match at position 0: impossible, they differ at a
        -- common index
        obtain ⟨i, hip, hiq, hne⟩ := hdiff
        obtain ⟨r1, hr1⟩ := hps
        obtain ⟨r2, hr2⟩ := hqs
        have h1 : p[i]? = (a :: rest)[i]? := by
          rw [← hr1]
          exact (List.getElem?_append_left hip).symm
        have h2 : q[i]? = (a :: rest)[i]? := by
          rw [← hr2]
          exact (List.getElem?_append_left hiq).symm
        exact absurd (h1.trans h2.symm) hne
      · -- p matches at position 0, q does not
        obtain ⟨t, ht⟩ := hps
        have hqs' : ¬ q <+: (p ++ t) := by rw [ht]; exact hqs
        have htlen : t.length ≤ n := by
          have hlc := congrArg List.length ht
          simp only [List.length_append, List.length_cons] at hlc
          have hp1 : 0 < p.length := List.length_pos.mpr hpne
          simp only [List.length_cons] at hlen
          omega
        obtain ⟨q0, qtl, hq⟩ : ∃ q0 qtl, q = q0 :: qtl := by
          rcases q with _ | ⟨q0, qtl⟩
          · exact absurd rfl hqne
          · exact ⟨q0, qtl, rfl⟩
        have hq0 : q.head? = some q0 := by rw [hq]; rfl
        have hq0mem : q0 ∈ q := by rw [hq]; exact List.mem_cons_self q0 qtl
        have hvq0 : ∀ c ∈ v, c ≠ q0 :=
          fun c hc heq => hqv q0 hq0mem c hc heq.symm
        have hblock : ∀ k, k < p.length → ¬ q <+: (List.drop k p ++ t) := by
          intro k hk hpre
          rcases Nat.eq_zero_or_pos k with rfl | hkpos
          · rw [List.drop_zero] at hpre
            exact hqs' hpre
          · obtain ⟨r, hr⟩ := hpre
            have hlen0 : 0 < q.length := List.length_pos.mpr hqne
            have h1 : (List.drop k p ++ t)[0]? = q[0]? := by
              rw [← hr]
              exact List.getElem?_append_left hlen0
            have h2 : (List.drop k p ++ t)[0]? = p[k]? := by
              have hdl : 0 < (List.drop k p).length := by
                simp only [List.length_drop]
                omega
              rw [List.getElem?_append_left hdl, List.getElem?_drop,
                Nat.add_zero]
            exact hqp k hk hkpos (h2.symm.trans h1)
        rw [← ht, replaceAll_append_self v t hpne,
          replaceAll_append_blocked q w p t hblock,
          replaceAll_append_self v (replaceAll q w t) hpne,
          replaceAll_append_left_disjoint q w q0 hq0 v (replaceAll p v t) hvq0]
        exact congrArg (v ++ ·) (ih t htlen)
      · -- q matches at position 0, p does not
        obtain ⟨t, ht⟩ := hqs
        have hps' : ¬ p <+: (q ++ t) := by rw [ht]; exact hps
        have htlen : t.length ≤ n := by
          have hlc := congrArg List.length ht
          simp only [List.length_append, List.length_cons] at hlc
          have hq1 : 0 < q.length := List.length_pos.mpr hqne
          simp only [List.length_cons] at hlen
          omega
        obtain ⟨p0, ptl, hpd⟩ : ∃ p0 ptl, p = p0 :: ptl := by
          rcases p with _ | ⟨p0, ptl⟩
          · exact absurd rfl hpne
          · exact ⟨p0, ptl, rfl⟩
        have hp0 : p.head? = some p0 := by rw [hpd]; rfl
        have hp0mem : p0 ∈ p := by rw [hpd]; exact List.mem_cons_self p0 ptl
        have hwp0 : ∀ c ∈ w, c ≠ p0 :=
          fun c hc heq => hpw p0 hp0mem c hc heq.symm
        have hblock : ∀ k, k < q.length → ¬ p <+: (List.drop k q ++ t) := by
          intro k hk hpre
          rcases Nat.eq_zero_or_pos k with rfl | hkpos
          · rw [List.drop_zero] at hpre
            exact hps' hpre
          · obtain ⟨r, hr⟩ := hpre
            have hlen0 : 0 < p.length := List.length_pos.mpr hpne
            have h1 : (List.drop k q ++ t)[0]? = p[0]? := by
              rw [← hr]
              exact List.getElem?_append_left hlen0
            have h2 : (List.drop k q ++ t)[0]? = q[k]? := by
              have hdl : 0 < (List.drop k q).length := by
                simp only [List.length_drop]
                omega
              rw [List.getElem?_append_left hdl, List.getElem?_drop,
                Nat.add_zero]
            exact hpq k hk hkpos (h2.symm.trans h1)
        rw [← ht, replaceAll_append_blocked p v q t hblock,
          replaceAll_append_self w (replaceAll p v t) hqne,
          replaceAll_append_self w t hqne,
          replaceAll_append_left_disjoint p v p0 hp0 w (replaceAll q w t) hwp0]
        exact congrArg (w ++ ·) (ih t htlen)
      · -- neither pattern matches at position 0
        have hrlen : rest.length ≤ n := by
          simp only [List.length_cons] at hlen
          omega
        have hpcons : ¬ (p <+: (a :: rest) ∧ p ≠ []) := fun hc => hps hc.1
        have hqcons : ¬ (q <+: (a :: rest) ∧ q ≠ []) := fun hc => hqs hc.1
        rw [replaceAll_cons_neg v hpcons, replaceAll_cons_neg w hqcons]
        have hq2 : ¬ (q <+: (a :: replaceAll p v rest) ∧ q ≠ []) := by
          rintro ⟨hpre, -⟩
          apply hqs
          apply isPrefix_of_isPrefix_replaceAll p v hvne (a :: rest) q hqv
          rw [replaceAll_cons_neg v hpcons]
          exact hpre
        have hp2 : ¬ (p <+: (a :: replaceAll q w rest) ∧ p ≠ []) := by
          rintro ⟨hpre, -⟩
          apply hps
          apply isPrefix_of_isPrefix_replaceAll q w hwne (a :: rest) p hpw
          rw [replaceAll_cons_neg w hqcons]
          exact hpre
        rw [replaceAll_cons_neg w hq2, replaceAll_cons_neg v hp2,
          ih rest hrlen]

theorem replacements_comm (vars : Variables)
    (h1 : vars.serviceName ≠ []) (h2 : vars.containerName ≠ [])
    (h3 : vars.firstPort ≠ [])
    (hd1 : ∀ c ∈ vars.serviceName,
      c ∉ serviceNamePH ∧ c ∉ containerNamePH ∧ c ∉ firstPortPH)
    (hd2 : ∀ c ∈ vars.containerName,
      c ∉ serviceNamePH ∧ c ∉ containerNamePH ∧ c ∉ firstPortPH)
    (hd3 : ∀ c ∈ vars.firstPort,
      c ∉ serviceNamePH ∧ c ∉ containerNamePH ∧ c ∉ firstPortPH) :
    ∀ x ∈ replacements vars, ∀ y ∈ replacements vars, ∀ z : Str,
      replaceAll y.1 y.2 (replaceAll x.1 x.2 z)
        = replaceAll x.1 x.2 (replaceAll y.1 y.2 z) := by
  intro x hx y hy z
  simp only [replacements, List.mem_cons, List.not_mem_nil, or_false] at hx hy
  rcases hx with rfl | rfl | rfl <;> rcases hy with rfl | rfl | rfl
  · rfl
  · exact replaceAll_comm_aux serviceNamePH vars.serviceName
      containerNamePH vars.containerName (by decide) (by decide) h1 h2
      (fun c hc d hd heq => (hd1 d hd).2.1 (heq ▸ hc))
      (fun c hc d hd heq => (hd2 d hd).1 (heq ▸ hc))
      ⟨2, by decide, by decide, by decide⟩ (by decide) (by decide)
      z.length z (le_refl _)
  · exact replaceAll_comm_aux serviceNamePH vars.serviceName
      firstPortPH vars.firstPort (by decide) (by decide) h1 h3
      (fun c hc d hd heq => (hd1 d hd).2.2 (heq ▸ hc))
      (fun c hc d hd heq => (hd3 d hd).1 (heq ▸ hc))
      ⟨2, by decide, by decide, by decide⟩ (by decide) (by decide)
      z.length z (le_refl _)
  · exact (replaceAll_comm_aux serviceNamePH vars.serviceName
      containerNamePH vars.containerName (by decide) (by decide) h1 h2
      (fun c hc d hd heq => (hd1 d hd).2.1 (heq ▸ hc))
      (fun c hc d hd heq => (hd2 d hd).1 (heq ▸ hc))
      ⟨2, by decide, by decide, by decide⟩ (by decide) (by decide)
      z.length z (le_refl _)).symm
  · rfl
  · exact replaceAll_comm_aux containerNamePH vars.containerName
      firstPortPH vars.firstPort (by decide) (by decide) h2 h3
      (fun c hc d hd heq => (hd2 d hd).2.2 (heq ▸ hc))
      (fun c hc d hd heq => (hd3 d hd).2.1 (heq ▸ hc))
      ⟨2, by decide, by decide, by decide⟩ (by decide) (by decide)
      z.length z (le_refl _)
  · exact (replaceAll_comm_aux serviceNamePH vars.serviceName
      firstPortPH vars.firstPort (by decide) (by decide) h1 h3
      (fun c hc d hd heq => (hd1 d hd).2.2 (heq ▸ hc))
      (fun c hc d hd heq => (hd3 d hd).1 (heq ▸ hc))
      ⟨2, by decide, by decide, by decide⟩ (by decide) (by decide)
      z.length z (le_refl _)).symm
  · exact (replaceAll_comm_aux containerNamePH vars.containerName
      firstPortPH vars.firstPort (by decide) (by decide) h2 h3
      (fun c hc d hd heq => (hd2 d hd).2.2 (heq ▸ hc))
      (fun c hc d hd heq => (hd3 d hd).2.1 (heq ▸ hc))
      ⟨2, by decide, by decide, by decide⟩ (by decide) (by decide)
      z.length z (le_refl _)).symm
  · rfl

theorem replaceVariablesOrd_perm (ord : List (Str × Str)) (vars : Variables)
    (hperm : ord.Perm (replacements vars))
    (h1 : vars.serviceName ≠ []) (h2 : vars.containerName ≠ [])
    (h3 : vars.firstPort ≠ [])
    (hd1 : ∀ c ∈ vars.serviceName,
      c ∉ serviceNamePH ∧ c ∉ containerNamePH ∧ c ∉ firstPortPH)
    (hd2 : ∀ c ∈ vars.containerName,
      c ∉ serviceNamePH ∧ c ∉ containerNamePH ∧ c ∉ firstPortPH)
    (hd3 : ∀ c ∈ vars.firstPort,
      c ∉ serviceNamePH ∧ c ∉ containerNamePH ∧ c ∉ firstPortPH) :
    ∀ content : Str, ReplaceVariablesOrd ord content
      = ReplaceVariablesOrd (replacements vars) content := by
  intro content
  exact hperm.foldl_eq'
    (fun x hx y hy z => replacements_comm vars h1 h2 h3 hd1 hd2 hd3 x
      (hperm.mem_iff.mp hx) y (hperm.mem_iff.mp hy) z) content

theorem manifestWithEntries_ord_congr (ord : List (Str × Str))
    (m : List (Str × ManifestValue)) (vars : Variables)
    (hrepl : ∀ content : Str, ReplaceVariablesOrd ord content
      = ReplaceVariablesOrd (replacements vars) content) :
    manifestWithEntries ord m vars
      = manifestWithEntries (replacements vars) m vars := by
  unfold manifestWithEntries
  have hgen : ∀ (l : List (Str × ManifestValue)) (acc : List (Str × Str)),
      l.foldl (fun acc kv => storeSet acc kv.1
        (ReplaceVariablesOrd ord (formatManifestValue kv.2))) acc
      = l.foldl (fun acc kv => storeSet acc kv.1
        (ReplaceVariablesOrd (replacements vars) (formatManifestValue kv.2)))
        acc := by
    intro l
    induction l with
    | nil => intro acc; rfl
    | cons kv t ih =>
      intro acc
      simp only [List.foldl_cons]
      rw [hrepl (formatManifestValue kv.2), ih]
  exact hgen m (manifestBase vars)

theorem resolveManifest_ord_congr (ord : List (Str × Str))
    (m : List (Str × ManifestValue)) (vars : Variables)
    (hrepl : ∀ content : Str, ReplaceVariablesOrd ord content
      = ReplaceVariablesOrd (replacements vars) content) :
    resolveManifest ord m vars = resolveManifest (replacements vars) m vars := by
  rw [resolveManifest_decomp, resolveManifest_decomp,
    manifestWithEntries_ord_congr ord m vars hrepl]

/-- Variables whose service name itself contains a placeholder token: a value
Compose files can define, which makes the substitution order observable. -/
def cexVars : Variables :=
  { serviceName := "${FIRST_PORT}".data, containerName := "c".data,
    firstPort := "9".data }

/-- A manifest whose single value contains the service-name placeholder. -/
def cexManifest : List (Str × ManifestValue) :=
  [("x".data, ManifestValue.str "${SERVICE_NAME}".data)]

/-- C3 counterexample: two iteration orders of the 3-entry replacements map
(the reversed order is a permutation of the canonical one, and Go map
iteration order is unspecified, so successive invocations can see either)
produce byte-for-byte different manifests for the same inputs. -/
theorem c3_nondeterminism_counterexample :
    ((replacements cexVars).reverse).Perm (replacements cexVars) ∧
    GenerateManifestOrd (replacements cexVars) cexManifest cexVars ≠
      GenerateManifestOrd (replacements cexVars).reverse cexManifest cexVars :=
  ⟨by decide, by decide⟩

/-- **C3.** `GenerateManifest` is deterministic — its output does not depend
on the iteration order of the replacements map — provided the three
substitution values (service name, container name, first port) are nonempty
and share no character with any of the three placeholder tokens: any
iteration order `ord` (a permutation of the canonical replacements list)
yields the same manifest as the canonical order. -/
theorem c3_determinism_amended (ord : List (Str × Str))
    (m : List (Str × ManifestValue)) (vars : Variables)
    (hperm : ord.Perm (replacements vars))
    (h1 : vars.serviceName ≠ []) (h2 : vars.containerName ≠ [])
    (h3 : vars.firstPort ≠ [])
    (hd1 : ∀ c ∈ vars.serviceName,
      c ∉ serviceNamePH ∧ c ∉ containerNamePH ∧ c ∉ firstPortPH)
    (hd2 : ∀ c ∈ vars.containerName,
      c ∉ serviceNamePH ∧ c ∉ containerNamePH ∧ c ∉ firstPortPH)
    (hd3 : ∀ c ∈ vars.firstPort,
      c ∉ serviceNamePH ∧ c ∉ containerNamePH ∧ c ∉ firstPortPH) :
    GenerateManifestOrd ord m vars
      = GenerateManifestOrd (replacements vars) m vars := by
  have hres : resolveManifest ord m vars
      = resolveManifest (replacements vars) m vars :=
    resolveManifest_ord_congr ord m vars
      (replaceVariablesOrd_perm ord vars hperm h1 h2 h3 hd1 hd2 hd3)
  rw [generateManifestOrd_decomp, generateManifestOrd_decomp, hres]

/-- Benign variables for the C3 witness: values disjoint from the
placeholder alphabets. -/
def c3wVars : Variables :=
  { serviceName := "chromium".data, containerName := "web".data,
    firstPort := "3000".data }

/-- Manifest input for the C3 witness. -/
def c3wManifest : List (Str × ManifestValue) :=
  [("appname".data, ManifestValue.str "${SERVICE_NAME}-x".data)]

theorem c3_determinism_amended_witness :
    GenerateManifestOrd (replacements c3wVars).reverse c3wManifest c3wVars
      = GenerateManifestOrd (replacements c3wVars) c3wManifest c3wVars :=
  c3_determinism_amended (replacements c3wVars).reverse c3wManifest c3wVars
    (by decide) (by decide) (by decide) (by decide) (by decide) (by decide)
    (by decide)
